import Mathlib

/-!
Verification of the subtitle/caption extraction pipeline of the
youtube-hybrid-mcp server (src/index.ts).

Modelling conventions:
- JavaScript strings are modelled as `List Char`; the top-level entry points
  take `String` (in Lean 4.14 a `String` wraps a `List Char`).
- JavaScript numbers are modelled as `Rat`.  All numeric literals appearing
  in the pipeline are decimal, so rational arithmetic agrees with the
  intended exact semantics; non-finite results (`Infinity`, `NaN`) of the
  numeric parsers are modelled as parse failures (`Option.none`).
- `parseInt`/`parseFloat` are modelled for decimal and hexadecimal inputs
  as specified by ECMA-262 (leading whitespace, optional sign, maximal
  digit prefix, trailing garbage ignored); the special string
  literal accepted by `parseFloat` that denotes an infinite value is
  modelled as a failure, since `Rat` has no infinity.
- The JavaScript whitespace class is modelled by its common members
  (space, tab, newline, carriage return, vertical tab, form feed,
  no-break space, BOM).
- Thrown exceptions are modelled with `Except String`.
-/

namespace YTMcp

attribute [local semireducible] Rat.add Rat.mul Rat.inv Rat.sub Rat.ofScientific

/-- Characters treated as whitespace (the JavaScript class used by
`trim`, `split` on a whitespace pattern, and numeric parsing). -/
def wsChar (c : Char) : Bool :=
  c = ' ' || c = '\t' || c = '\n' || c = '\r' || c = '\x0b' ||
  c = '\x0c' || c = '\u00A0' || c = '\uFEFF'

/-- Model of the JavaScript string method that removes leading whitespace. -/
def trimLeft (l : List Char) : List Char := l.dropWhile (fun c => wsChar c)

/-- Model of the JavaScript string method `trim` (both ends). -/
def trimL (l : List Char) : List Char :=
  ((l.dropWhile (fun c => wsChar c)).reverse.dropWhile (fun c => wsChar c)).reverse

/-- Model of the JavaScript `split` on a single-character separator. -/
def splitCharL (sep : Char) : List Char → List (List Char)
  | [] => [[]]
  | c :: rest =>
    if c = sep then [] :: splitCharL sep rest
    else
      match splitCharL sep rest with
      | [] => [[c]]
      | h :: t => (c :: h) :: t

/-- Model of the JavaScript string method `includes` (substring test). -/
def containsSeq (pat : List Char) : List Char → Bool
  | [] => pat.isEmpty
  | c :: rest => pat.isPrefixOf (c :: rest) || containsSeq pat rest

/-- The five-character cue-timing separator of WebVTT lines. -/
def arrowSepL : List Char := [' ', '-', '-', '>', ' ']

/-- The three-character substring that triggers the cue-timing branch. -/
def arrowLit : List Char := ['-', '-', '>']

/-- Model of the JavaScript `split` on the five-character timing
separator (leftmost, non-overlapping matches).  The first argument is
recursion fuel, always called with at least the length of the list so
that the zero-fuel branch is unreachable. -/
def splitArrowAux : Nat → List Char → List Char → List (List Char)
  | _, [], acc => [acc.reverse]
  | 0, l, acc => [acc.reverse ++ l]
  | fuel + 1, c :: rest, acc =>
    if arrowSepL.isPrefixOf (c :: rest) then
      acc.reverse :: splitArrowAux fuel (List.drop 4 rest) []
    else
      splitArrowAux fuel rest (c :: acc)

def splitArrow (l : List Char) : List (List Char) := splitArrowAux l.length l []

/-- Model of the JavaScript `split` on a maximal-whitespace-run pattern,
with the same fuel convention as `splitArrowAux`. -/
def splitWSAux : Nat → List Char → List Char → List (List Char)
  | _, [], acc => [acc.reverse]
  | 0, l, acc => [acc.reverse ++ l]
  | fuel + 1, c :: rest, acc =>
    if wsChar c then acc.reverse :: splitWSAux fuel (rest.dropWhile wsChar) []
    else splitWSAux fuel rest (c :: acc)

def splitWSL (l : List Char) : List (List Char) := splitWSAux l.length l []

/-- Model of the JavaScript string method `padStart`. -/
def padStartL (w : Nat) (c : Char) (l : List Char) : List Char :=
  List.replicate (w - l.length) c ++ l

/-- The decimal digit character for a value below ten. -/
def digitCharOf (n : Nat) : Char := Char.ofNat (48 + n)

/-- Decimal rendering with recursion fuel, always called with fuel
above the value so that the zero-fuel branch is unreachable. -/
def natToStringAux : Nat → Nat → List Char
  | 0, _ => []
  | fuel + 1, n =>
    if n < 10 then [digitCharOf n]
    else natToStringAux fuel (n / 10) ++ [digitCharOf (n % 10)]

/-- Model of `Number.prototype.toString` on a nonnegative integer. -/
def natToString (n : Nat) : List Char := natToStringAux (n + 1) n

/-- Model of `Number.prototype.toString` on an integer. -/
def intToString (i : Int) : List Char :=
  if i < 0 then '-' :: natToString i.natAbs else natToString i.toNat

/-- Numeric value of a decimal digit character. -/
def digitVal (c : Char) : Nat := c.toNat - 48

/-- Value of a nonempty list of decimal digit characters. -/
def digitsVal (l : List Char) : Nat := l.foldl (fun a c => 10 * a + digitVal c) 0

def hexDigit (c : Char) : Bool :=
  c.isDigit || ('a' ≤ c && c ≤ 'f') || ('A' ≤ c && c ≤ 'F')

def hexDigitVal (c : Char) : Nat :=
  if c.isDigit then c.toNat - 48
  else if 'a' ≤ c && c ≤ 'f' then c.toNat - 87
  else c.toNat - 55

def hexVal (l : List Char) : Nat := l.foldl (fun a c => 16 * a + hexDigitVal c) 0

/-- The optional leading sign of a JavaScript numeric literal, together
with the remaining characters. -/
def signSplit (l : List Char) : Int × List Char :=
  match l with
  | '-' :: r => (-1, r)
  | '+' :: r => (1, r)
  | _ => (1, l)

/-- Model of the JavaScript global `parseInt` (with no radix argument):
skip leading whitespace, read an optional sign, detect a hexadecimal
prefix, then take the maximal digit prefix; `none` models `NaN`. -/
def parseIntL (l : List Char) : Option Int :=
  let s := signSplit (trimLeft l)
  let sgn : Int := s.1
  let l2 : List Char := s.2
  match l2 with
  | '0' :: x :: r =>
    if x = 'x' || x = 'X' then
      let ds := r.takeWhile hexDigit
      if ds.isEmpty then none else some (sgn * (hexVal ds : Int))
    else
      some (sgn * (digitsVal (l2.takeWhile Char.isDigit) : Int))
  | _ =>
    let ds := l2.takeWhile Char.isDigit
    if ds.isEmpty then none else some (sgn * (digitsVal ds : Int))

/-- Exponent suffix of a JavaScript floating-point literal: consumed only
when a well-formed exponent follows, otherwise ignored. -/
def readExp (l : List Char) : Int :=
  match l with
  | e :: r =>
    if e = 'e' || e = 'E' then
      let s := signSplit r
      let ds := s.2.takeWhile Char.isDigit
      if ds.isEmpty then 0 else s.1 * (digitsVal ds : Int)
    else 0
  | _ => 0

/-- Model of the JavaScript global `parseFloat`: skip leading whitespace,
optional sign, integer digits, optional fraction, optional exponent;
`none` models `NaN` (and the infinite literal, see the module comment). -/
def parseFloatL (l : List Char) : Option Rat :=
  let s := signSplit (trimLeft l)
  let sgn : Rat := (s.1 : Rat)
  let l2 : List Char := s.2
  let ipart := l2.takeWhile Char.isDigit
  let rest1 := l2.dropWhile Char.isDigit
  match rest1 with
  | '.' :: r =>
    let fpart := r.takeWhile Char.isDigit
    let rest2 := r.dropWhile Char.isDigit
    if ipart.isEmpty && fpart.isEmpty then none
    else
      let mantissa : Rat :=
        (digitsVal ipart : Rat) + (digitsVal fpart : Rat) / ((10 : Rat) ^ fpart.length)
      some (sgn * mantissa * (10 : Rat) ^ readExp rest2)
  | _ =>
    if ipart.isEmpty then none
    else some (sgn * (digitsVal ipart : Rat) * (10 : Rat) ^ readExp rest1)

/-! ## Time codec (src/index.ts, timeToSeconds / formatTime / formatVTTTime) -/

/-- `timeToSeconds` from src/index.ts: split on a colon, then
`parts[0]` is parsed as hours, `parts[1]` as minutes, `parts[2]` as
fractional seconds, each defaulting to `0` when the parse fails or the
part is absent (an absent part is `undefined`, which both numeric
parsers turn into `NaN`, hence `0` after the default). -/
def timeToSeconds (time : List Char) : Rat :=
  let parts := splitCharL ':' time
  let hours : Int := ((parts.get? 0).bind parseIntL).getD 0
  let minutes : Int := ((parts.get? 1).bind parseIntL).getD 0
  let seconds : Rat := ((parts.get? 2).bind parseFloatL).getD 0
  (hours : Rat) * 3600 + (minutes : Rat) * 60 + seconds

/-- Truncation toward zero, the rounding used by the JavaScript `%`
operator on its quotient. -/
def jsTruncQ (q : Rat) : Int := if 0 ≤ q then Int.floor q else Int.ceil q

/-- The JavaScript `%` operator on numbers (sign follows the dividend). -/
def jsRemQ (a b : Rat) : Rat := a - b * ((jsTruncQ (a / b) : Int) : Rat)

/-- The JavaScript `%` operator on integral values. -/
def jsRemInt (a b : Int) : Int := a - b * (Int.tdiv a b)

/-- `formatTime` from src/index.ts: display formatter that omits the
hours field when the hour count is not positive. -/
def formatTime (milliseconds : Rat) : List Char :=
  let totalSeconds : Int := Int.floor (milliseconds / 1000)
  let hours : Int := Int.floor ((totalSeconds : Rat) / 3600)
  let minutes : Int := Int.floor (((jsRemInt totalSeconds 3600 : Int) : Rat) / 60)
  let seconds : Int := jsRemInt totalSeconds 60
  let ms : Int := Int.floor (jsRemQ milliseconds 1000)
  if 0 < hours then
    padStartL 2 '0' (intToString hours) ++ ':' ::
      (padStartL 2 '0' (intToString minutes) ++ ':' ::
        (padStartL 2 '0' (intToString seconds) ++ '.' ::
          padStartL 3 '0' (intToString ms)))
  else
    padStartL 2 '0' (intToString minutes) ++ ':' ::
      (padStartL 2 '0' (intToString seconds) ++ '.' ::
        padStartL 3 '0' (intToString ms))

/-- `formatVTTTime` from src/index.ts: fixed-width cue-file formatter
that always shows the hours field. -/
def formatVTTTime (milliseconds : Rat) : List Char :=
  let totalSeconds : Int := Int.floor (milliseconds / 1000)
  let hours : Int := Int.floor ((totalSeconds : Rat) / 3600)
  let minutes : Int := Int.floor (((jsRemInt totalSeconds 3600 : Int) : Rat) / 60)
  let seconds : Int := jsRemInt totalSeconds 60
  let ms : Int := Int.floor (jsRemQ milliseconds 1000)
  padStartL 2 '0' (intToString hours) ++ ':' ::
    (padStartL 2 '0' (intToString minutes) ++ ':' ::
      (padStartL 2 '0' (intToString seconds) ++ '.' ::
        padStartL 3 '0' (intToString ms)))

/-! ## Transcript parser (src/index.ts, getSubtitles lines 344-374) -/

/-- One transcript item, with the exact fields built by the parser loop
of `getSubtitles`: `duration` is in seconds while `offset` and
`endTime` are in milliseconds, as in the source. -/
structure Cue where
  text : List Char
  duration : Rat
  offset : Rat
  endTime : Rat
  startTimeFormatted : List Char
  endTimeFormatted : List Char
deriving DecidableEq, Repr

def webvttLit : List Char := ("WEBVTT").toList

/-- The test `line.match` against the pure-integer cue-index pattern. -/
def isIndexLine (l : List Char) : Bool := !l.isEmpty && l.all Char.isDigit

/-- The item opened by a cue-timing line, before any text accumulates. -/
def mkCue (startStr endStr : List Char) : Cue :=
  let startTime := timeToSeconds startStr
  let endTime := timeToSeconds endStr
  let duration := endTime - startTime
  let offset := startTime * 1000
  let endOffset := endTime * 1000
  { text := []
    duration := duration
    offset := offset
    endTime := endOffset
    startTimeFormatted := formatTime offset
    endTimeFormatted := formatTime endOffset }

/-- The text-accumulation statement `currentItem.text += line + ' '`. -/
def appendText (c : Cue) (line : List Char) : Cue :=
  { c with text := c.text ++ line ++ [' '] }

/-- The parser loop of `getSubtitles`: one pass over the lines with a
nullable current item; a cue-timing line that splits into a single part
leaves the end timestamp `undefined`, and the subsequent `split` inside
`timeToSeconds` throws, modelled as `Except.error`. -/
def parseLines : List (List Char) → Option Cue → List Cue → Except String (List Cue)
  | [], cur, acc => .ok (acc ++ cur.toList)
  | line :: rest, cur, acc =>
    if containsSeq arrowLit line then
      match (splitArrow line).get? 1 with
      | none => .error ("TypeError: undefined is not a string in timeToSeconds")
      | some endStr =>
        parseLines rest (some (mkCue (((splitArrow line).get? 0).getD []) endStr))
          (acc ++ cur.toList)
    else if cur.isSome && !(trimL line).isEmpty && !(webvttLit.isPrefixOf line)
        && !(isIndexLine line) then
      parseLines rest (cur.map (fun c => appendText c line)) acc
    else
      parseLines rest cur acc

/-- VTT-to-transcript parsing, as performed on the downloaded payload. -/
def parseVTT (s : String) : Except String (List Cue) :=
  parseLines (splitCharL '\n' s.toList) none []

/-! ## Transcript serializer (src/index.ts, generateVTTContent) -/

/-- The per-item lines emitted by the `forEach` of `generateVTTContent`:
a one-based index, the timing line, the trimmed text, a blank line. -/
def generateVTTBlocks : Nat → List Cue → List (List Char)
  | _, [] => []
  | index, item :: rest =>
    [natToString (index + 1),
     formatVTTTime item.offset ++ arrowSepL ++ formatVTTTime item.endTime,
     trimL item.text,
     []] ++ generateVTTBlocks (index + 1) rest

/-- Concatenation of lines, each terminated by a newline. -/
def joinNL (lines : List (List Char)) : List Char :=
  (lines.map (fun l => l ++ ['\n'])).flatten

/-- `generateVTTContent` from src/index.ts: the header line, a blank
line, then the per-item blocks. -/
def generateVTTContent (transcript : List Cue) : String :=
  ⟨joinNL ([webvttLit, []] ++ generateVTTBlocks 0 transcript)⟩

/-! ## Caption catalog (src/index.ts, checkSubtitlesAvailability) -/

/-- Outcome of spawning the external lister: an exit code with the
collected standard output, or a launch failure. -/
inductive SpawnOutcome where
  | exit (code : Int) (stdout : String)
  | launchError
deriving DecidableEq

/-- The resolved value of the availability promise. -/
structure SubsAvailability where
  hasSubtitles : Bool
  availableLanguages : List (List Char)
deriving DecidableEq, Repr

def availSubsLit : List Char := ("Available subtitles").toList

def availCapsLit : List Char := ("Available automatic captions").toList

def availLit : List Char := ("Available").toList

def languageLit : List Char := ("Language").toList

def nameLit : List Char := ("Name").toList

/-- The scanning loop of `checkSubtitlesAvailability` over the lister
output lines, with the two section flags; the blank-line test executes
a `break`, modelled by returning the accumulated languages with the
remaining lines discarded. -/
def scanSubsLines : Bool → Bool → List (List Char) → List (List Char)
  | _, _, [] => []
  | inSubsSection, inCaptionsSection, line :: rest =>
    if containsSeq availSubsLit line then
      scanSubsLines true false rest
    else if containsSeq availCapsLit line then
      scanSubsLines false true rest
    else if (inSubsSection || inCaptionsSection) && (trimL line).isEmpty then
      []
    else
      let fromSubs : List (List Char) :=
        if inSubsSection && containsSeq [':'] line then
          let lang := trimL ((splitWSL line).headD [])
          if !lang.isEmpty && lang ≠ languageLit && lang ≠ nameLit
              && lang.length = 2 then [lang] else []
        else []
      let fromCaps : List (List Char) :=
        if inCaptionsSection && !containsSeq availLit line
            && !(trimL line).isEmpty && !containsSeq languageLit line then
          let lang := trimL ((splitWSL line).headD [])
          if !lang.isEmpty && 2 ≤ lang.length && lang.length ≤ 5 then [lang] else []
        else []
      fromSubs ++ fromCaps ++ scanSubsLines inSubsSection inCaptionsSection rest

/-- `checkSubtitlesAvailability` from src/index.ts as a function of the
lister outcome: the promise only ever resolves; a non-zero exit or a
launch error resolves with no subtitles and no languages. -/
def checkSubtitlesAvailability (language : List Char) : SpawnOutcome → SubsAvailability
  | .exit code stdout =>
    if code = 0 then
      let availableLanguages := scanSubsLines false false (splitCharL '\n' stdout.toList)
      { hasSubtitles := availableLanguages.contains language
        availableLanguages := availableLanguages }
    else { hasSubtitles := false, availableLanguages := [] }
  | .launchError => { hasSubtitles := false, availableLanguages := [] }

/-! ## Artifact resolution and result assembly (getSubtitles lines 322-392) -/

/-- The candidate suffixes probed after a reported-successful download. -/
def possibleExtensions (language : List Char) : List (List Char) :=
  [('.' :: language) ++ (".vtt").toList, (".en.vtt").toList, (".vtt").toList]

/-- The probing loop: `readFileSync` inside a `try` either throws (the
file is absent, modelled by `none`) or returns a buffer, which is an
object and therefore always truthy — even for a zero-byte file — so the
loop keeps the first candidate path that exists. -/
def findVttFile (fs : List Char → Option (List Char)) (tempBase language : List Char) :
    Option (List Char) :=
  ((possibleExtensions language).map (fun ext => tempBase ++ ext)).find?
    (fun path => (fs path).isSome)

/-- The guard after the probing loop: an empty resolved path throws the
artifact-missing error. -/
def resolveVttFile (fs : List Char → Option (List Char)) (tempBase language : List Char) :
    Except String (List Char) :=
  match findVttFile fs tempBase language with
  | some path => .ok path
  | none => .error ("Subtitle file not found after download (tried base path)")

/-- The payload assembled by `getSubtitles` after a successful parse. -/
structure SubtitlesResult where
  videoId : List Char
  language : List Char
  available : Bool
  transcript : List Cue
  vttContent : Option String
  fileName : Option (List Char)
deriving DecidableEq

/-- The tail of `getSubtitles` (lines 343-392): parse the payload, then
regenerate VTT content only when saving was requested and the
transcript is nonempty, and attach the file name when saving. -/
def buildSubtitlesResult (videoId language : List Char) (saveToFile : Bool)
    (vttContent : String) : Except String SubtitlesResult := do
  let transcript ← parseVTT vttContent
  let generatedVttContent : String :=
    if saveToFile && !transcript.isEmpty then generateVTTContent transcript else ("")
  .ok { videoId := videoId
        language := language
        available := true
        transcript := transcript
        vttContent := if saveToFile then some generatedVttContent else none
        fileName :=
          if saveToFile then some (videoId ++ ('_' :: language) ++ (".vtt").toList)
          else none }

/-! ## Concrete inputs used by the example-level theorems -/

instance (α β : Type) [DecidableEq α] [DecidableEq β] : DecidableEq (Except α β) :=
  fun a b =>
    match a, b with
    | .ok x, .ok y =>
      if h : x = y then .isTrue (by rw [h]) else .isFalse (by simp [h])
    | .error x, .error y =>
      if h : x = y then .isTrue (by rw [h]) else .isFalse (by simp [h])
    | .ok _, .error _ => .isFalse (by simp)
    | .error _, .ok _ => .isFalse (by simp)

/-- The example payload from the specification. -/
def samplePayload : String := "WEBVTT\n\n1\n00:00:01.000 --> 00:00:03.500\nHello world\n\n"

/-- The single transcript item that parsing `samplePayload` produces. -/
def sampleCue : Cue :=
  { text := ("Hello world ").toList
    duration := 5 / 2
    offset := 1000
    endTime := 3500
    startTimeFormatted := ("00:01.000").toList
    endTimeFormatted := ("00:03.500").toList }

/-- The example lister output from the specification: a manual-subtitles
section, a blank line, then an automatic-captions section. -/
def sampleListing : String :=
  "Available subtitles\nen    English    vtt, srt\n\nAvailable automatic captions\nen-US   English (auto)\n"

/-- A cue-timing line whose separator lacks the surrounding spaces. -/
def badPayload : String := "WEBVTT\n\n00:00:01.000-->00:00:03.500\nHi\n"

/-- A temp base path for the artifact-resolution examples. -/
def sampleBase : List Char := ("/tmp/subs_vid_1").toList

/-- A file system in which the first candidate exists but is empty and
the bare candidate exists with content. -/
def sampleFs : List Char → Option (List Char) := fun p =>
  if p = sampleBase ++ (".en.vtt").toList then some []
  else if p = sampleBase ++ (".vtt").toList then some (("WEBVTT").toList)
  else none

/-! ## Specification-side helper definitions used by the theorems -/

/-- Occurrence of a pattern at some position of a character list. -/
def Occurs (pat l : List Char) : Prop := ∃ i, pat <+: l.drop i

/-- The fixed-width timestamp text for a nonnegative integral
millisecond count, the normal form of `formatVTTTime`. -/
def vttTimeStringOf (M : Nat) : List Char :=
  padStartL 2 '0' (natToString (M / 3600000)) ++ ':' ::
    (padStartL 2 '0' (natToString (M / 60000 % 60)) ++ ':' ::
      (padStartL 2 '0' (natToString (M / 1000 % 60)) ++ '.' ::
        padStartL 3 '0' (natToString (M % 1000))))

/-- The display timestamp text without the hours field, the normal form
of `formatTime` below one hour. -/
def shortTimeStringOf (M : Nat) : List Char :=
  padStartL 2 '0' (natToString (M / 60000)) ++ ':' ::
    (padStartL 2 '0' (natToString (M / 1000 % 60)) ++ '.' ::
      padStartL 3 '0' (natToString (M % 1000)))

/-- Text of a cue after one serialize-parse round trip: dropped when the
trimmed text would be skipped by the parser (blank, a pure-integer line,
or a line opening like the header), otherwise the trimmed text with the
parser's trailing space. -/
def normText (t : List Char) : List Char :=
  if t = [] ∨ isIndexLine t = true ∨ webvttLit.isPrefixOf t = true then [] else t ++ [' ']

/-- A cue after one serialize-parse round trip: timestamps are floored
to whole milliseconds and the text is normalised. -/
def normCue (c : Cue) : Cue :=
  { text := normText (trimL c.text)
    duration := ((⌊c.endTime⌋ : Rat) - (⌊c.offset⌋ : Rat)) / 1000
    offset := (⌊c.offset⌋ : Rat)
    endTime := (⌊c.endTime⌋ : Rat)
    startTimeFormatted := formatTime (⌊c.offset⌋ : Rat)
    endTimeFormatted := formatTime (⌊c.endTime⌋ : Rat) }

/-- The source lines of a cue text, each with the appended space. -/
def joinSp (ls : List (List Char)) : List Char := (ls.map (fun l => l ++ [' '])).flatten

/-- The textual invariant of every cue built by the parser: the text is
empty or ends in the appended space, never contains a newline, and
never contains the timing-separator core. -/
def TextOk (t : List Char) : Prop :=
  t = [] ∨ (t.getLast? = some ' ' ∧ containsSeq arrowLit t = false ∧ '\n' ∉ t)

/-- A cue is round-trippable when its timestamps are nonnegative and its
text carries the parser invariant. -/
def CueOk (c : Cue) : Prop := 0 ≤ c.offset ∧ 0 ≤ c.endTime ∧ TextOk c.text

/-! ## Lemmas about the string primitives -/

theorem natToStringAux_fuel (f1 : Nat) : ∀ (f2 n : Nat), n < f1 → n < f2 →
    natToStringAux f1 n = natToStringAux f2 n := by
  induction f1 with
  | zero => intro f2 n h1 _; omega
  | succ f ih =>
    intro f2 n h1 h2
    cases f2 with
    | zero => omega
    | succ g =>
      rw [natToStringAux, natToStringAux]
      by_cases hn : n < 10
      · rw [if_pos hn, if_pos hn]
      · rw [if_neg hn, if_neg hn, ih g (n / 10) (by omega) (by omega)]

theorem natToString_eq (n : Nat) : natToString n =
    if n < 10 then [digitCharOf n] else natToString (n / 10) ++ [digitCharOf (n % 10)] := by
  show natToStringAux (n + 1) n = _
  rw [natToStringAux]
  by_cases hn : n < 10
  · rw [if_pos hn, if_pos hn]
  · rw [if_neg hn, if_neg hn,
      natToStringAux_fuel n (n / 10 + 1) (n / 10) (by omega) (by omega)]
    rfl

theorem splitArrowAux_nil (fuel : Nat) (acc : List Char) :
    splitArrowAux fuel [] acc = [acc.reverse] := by
  cases fuel <;> rfl

theorem splitArrowAux_fuel (f1 : Nat) : ∀ (f2 : Nat) (l acc : List Char),
    l.length ≤ f1 → l.length ≤ f2 → splitArrowAux f1 l acc = splitArrowAux f2 l acc := by
  induction f1 with
  | zero =>
    intro f2 l acc h1 _
    have hl : l = [] := List.length_eq_zero.mp (by omega)
    subst hl
    rw [splitArrowAux_nil, splitArrowAux_nil]
  | succ f ih =>
    intro f2 l acc h1 h2
    cases l with
    | nil => rw [splitArrowAux_nil, splitArrowAux_nil]
    | cons c rest =>
      cases f2 with
      | zero => simp at h2
      | succ g =>
        rw [splitArrowAux, splitArrowAux]
        by_cases hp : arrowSepL.isPrefixOf (c :: rest) = true
        · rw [if_pos hp, if_pos hp,
            ih g (List.drop 4 rest) [] (by simp at h1 ⊢; omega) (by simp at h2 ⊢; omega)]
        · rw [if_neg hp, if_neg hp,
            ih g rest (c :: acc) (by simp at h1 ⊢; omega) (by simp at h2 ⊢; omega)]

theorem splitCharL_ne_nil (sep : Char) (l : List Char) : splitCharL sep l ≠ [] := by
  induction l with
  | nil => simp [splitCharL]
  | cons c rest ih =>
    by_cases h : c = sep
    · simp [splitCharL, h]
    · simp only [splitCharL, if_neg h]
      cases hr : splitCharL sep rest with
      | nil => simp
      | cons x xs => simp

theorem splitCharL_not_mem (sep : Char) (l : List Char) :
    ∀ p ∈ splitCharL sep l, sep ∉ p := by
  induction l with
  | nil =>
    intro p hp
    simp only [splitCharL, List.mem_singleton] at hp
    simp [hp]
  | cons c rest ih =>
    intro p hp
    by_cases h : c = sep
    · rw [splitCharL, if_pos h] at hp
      rcases List.mem_cons.mp hp with hp | hp
      · simp [hp]
      · exact ih p hp
    · rw [splitCharL, if_neg h] at hp
      cases hr : splitCharL sep rest with
      | nil => exact absurd hr (splitCharL_ne_nil sep rest)
      | cons x xs =>
        rw [hr] at hp
        rcases List.mem_cons.mp hp with hp | hp
        · subst hp
          intro hm
          rcases List.mem_cons.mp hm with h1 | h1
          · exact h h1.symm
          · exact ih x (by rw [hr]; exact List.mem_cons_self x xs) h1
        · exact ih p (by rw [hr]; exact List.mem_cons_of_mem x hp)

theorem splitCharL_append (sep : Char) (a b : List Char) (ha : sep ∉ a) :
    splitCharL sep (a ++ sep :: b) = a :: splitCharL sep b := by
  induction a with
  | nil => simp [splitCharL]
  | cons c a2 ih =>
    have hc : ¬(c = sep) := fun h => ha (by simp [h])
    have ha2 : sep ∉ a2 := fun h => ha (List.mem_cons_of_mem c h)
    rw [List.cons_append, splitCharL, if_neg hc, ih ha2]

theorem splitCharL_single (sep : Char) (a : List Char) (ha : sep ∉ a) :
    splitCharL sep a = [a] := by
  induction a with
  | nil => simp [splitCharL]
  | cons c a2 ih =>
    have hc : ¬(c = sep) := fun h => ha (by simp [h])
    have ha2 : sep ∉ a2 := fun h => ha (List.mem_cons_of_mem c h)
    simp only [splitCharL, if_neg hc, ih ha2]

theorem joinNL_cons (l : List Char) (rest : List (List Char)) :
    joinNL (l :: rest) = l ++ '\n' :: joinNL rest := by
  simp [joinNL]

theorem splitCharL_joinNL (lines : List (List Char)) (h : ∀ l ∈ lines, '\n' ∉ l) :
    splitCharL '\n' (joinNL lines) = lines ++ [[]] := by
  induction lines with
  | nil => simp [joinNL, splitCharL]
  | cons l rest ih =>
    rw [joinNL_cons, splitCharL_append '\n' l (joinNL rest) (h l (List.mem_cons_self l rest))]
    rw [ih (fun x hx => h x (List.mem_cons_of_mem l hx))]
    simp

theorem containsSeq_iff (pat l : List Char) : containsSeq pat l = true ↔ Occurs pat l := by
  induction l with
  | nil =>
    simp only [containsSeq, List.isEmpty_iff, Occurs]
    constructor
    · intro h
      exact ⟨0, by simp [h]⟩
    · rintro ⟨i, hi⟩
      simpa using List.prefix_nil.mp (by simpa using hi)
  | cons c rest ih =>
    simp only [containsSeq, Bool.or_eq_true, List.isPrefixOf_iff_prefix, ih]
    constructor
    · rintro (h | ⟨i, hi⟩)
      · exact ⟨0, by simpa using h⟩
      · exact ⟨i + 1, by simpa using hi⟩
    · rintro ⟨i, hi⟩
      cases i with
      | zero => exact Or.inl (by simpa using hi)
      | succ j => exact Or.inr ⟨j, by simpa using hi⟩

theorem containsSeq_false_iff (pat l : List Char) :
    containsSeq pat l = false ↔ ¬Occurs pat l := by
  rw [← containsSeq_iff]
  simp

theorem occurs_of_prefix_drop {pat l : List Char} (i : Nat) (h : pat <+: l.drop i) :
    Occurs pat l := ⟨i, h⟩

/-- A pattern occurring in an infix also occurs in the whole list. -/
theorem Occurs.mono {pat l1 l2 : List Char} (hinf : l1 <:+: l2) (h : Occurs pat l1) :
    Occurs pat l2 := by
  rcases hinf with ⟨u, v, rfl⟩
  rcases h with ⟨i, hi⟩
  refine ⟨u.length + i, ?_⟩
  rw [List.append_assoc, ← List.drop_drop, List.drop_left,
    List.drop_append_eq_append_drop]
  exact hi.trans (List.prefix_append _ _)

/-- Pieces with no occurrence of the pattern, glued so that no
occurrence can start inside the left piece, yield no occurrence. -/
theorem containsSeq_append_false (pat a b : List Char)
    (hb : containsSeq pat b = false)
    (h : ∀ s, s <:+ a → s ≠ [] → pat.isPrefixOf (s ++ b) = false) :
    containsSeq pat (a ++ b) = false := by
  induction a with
  | nil => simpa using hb
  | cons c a2 ih =>
    rw [List.cons_append, containsSeq, Bool.or_eq_false_iff]
    constructor
    · have := h (c :: a2) (List.suffix_refl _) (by simp)
      simpa using this
    · exact ih (fun s hs hne => h s (hs.trans (List.suffix_cons c a2)) hne)

theorem arrow_prefix_long {s b : List Char} (h : arrowLit <+: s ++ b)
    (hlen : 3 ≤ s.length) : arrowLit <+: s := by
  have h1 : arrowLit = (s ++ b).take 3 := List.prefix_iff_eq_take.mp h
  have h2 : (s ++ b).take 3 = s.take 3 := by
    rw [List.take_append_eq_append_take]
    have : 3 - s.length = 0 := by omega
    simp [this]
  rw [h1.trans h2]
  exact List.take_prefix 3 s

theorem occursAtStart {pat s : List Char} (h : pat <+: s) : Occurs pat s :=
  ⟨0, by simpa using h⟩

theorem arrowFree_of_all_digits (l : List Char) (h : ∀ c ∈ l, c.isDigit) :
    containsSeq arrowLit l = false := by
  rw [containsSeq_false_iff]
  rintro ⟨i, hi⟩
  have hm : '-' ∈ l.drop i := hi.subset (by simp [arrowLit])
  have : ('-').isDigit := h _ (List.drop_subset i l hm)
  simp [Char.isDigit] at this

theorem arrowFree_append_space (l : List Char) (h : containsSeq arrowLit l = false) :
    containsSeq arrowLit (l ++ [' ']) = false := by
  apply containsSeq_append_false
  · decide
  · intro s hs hne
    by_contra hcon
    rw [Bool.not_eq_false, List.isPrefixOf_iff_prefix] at hcon
    rcases hlen : s.length with _ | _ | _ | n
    · exact hne (List.length_eq_zero.mp hlen)
    · rcases s with _ | ⟨a, _ | ⟨c, s2⟩⟩ <;> simp at hlen
      rcases hcon with ⟨t, ht⟩
      simp [arrowLit] at ht
    · rcases s with _ | ⟨a, _ | ⟨c, s2⟩⟩ <;> simp at hlen
      rcases hcon with ⟨t, ht⟩
      rcases s2 with _ | ⟨d, s3⟩ <;> simp [arrowLit] at ht hlen
    · have h3 : 3 ≤ s.length := by omega
      have hocc : Occurs arrowLit l :=
        (occursAtStart (arrow_prefix_long hcon h3)).mono hs.isInfix
      rw [containsSeq_false_iff] at h
      exact h hocc

theorem arrowFree_append_of_ends_space (t b : List Char)
    (ht : containsSeq arrowLit t = false) (hb : containsSeq arrowLit b = false)
    (hend : t = [] ∨ t.getLast? = some ' ') :
    containsSeq arrowLit (t ++ b) = false := by
  rcases hend with rfl | hend
  · simpa using hb
  apply containsSeq_append_false
  · exact hb
  · intro s hs hne
    by_contra hcon
    rw [Bool.not_eq_false, List.isPrefixOf_iff_prefix] at hcon
    have hlast : s.getLast? = some ' ' := by
      rcases hs with ⟨u, hu⟩
      rw [← hu, List.getLast?_append_of_ne_nil u hne] at hend
      exact hend
    rcases hlen : s.length with _ | _ | _ | n
    · exact hne (List.length_eq_zero.mp hlen)
    · rcases s with _ | ⟨a, s1⟩ <;> simp at hlen
      rcases s1 with _ | ⟨c, s2⟩ <;> simp at hlen
      rcases hcon with ⟨w, hw⟩
      simp [arrowLit] at hw
      simp at hlast
      rw [← hw.1] at hlast
      exact absurd hlast (by decide)
    · rcases s with _ | ⟨a, s1⟩ <;> simp at hlen
      rcases s1 with _ | ⟨c, s2⟩ <;> simp at hlen
      rcases s2 with _ | ⟨d, s3⟩ <;> simp at hlen
      rcases hcon with ⟨w, hw⟩
      simp [arrowLit] at hw
      simp at hlast
      rw [← hw.2.1] at hlast
      exact absurd hlast (by decide)
    · have h3 : 3 ≤ s.length := by omega
      have hocc : Occurs arrowLit t :=
        (occursAtStart (arrow_prefix_long hcon h3)).mono hs.isInfix
      rw [containsSeq_false_iff] at ht
      exact ht hocc

theorem dropWhile_head_not (p : Char → Bool) (l : List Char) :
    ∀ c, (l.dropWhile p).head? = some c → p c = false := by
  induction l with
  | nil => intro c hc; simp at hc
  | cons a rest ih =>
    intro c hc
    by_cases h : p a
    · rw [List.dropWhile_cons_of_pos h] at hc
      exact ih c hc
    · rw [List.dropWhile_cons_of_neg h] at hc
      simp at hc
      rw [← hc]
      exact Bool.eq_false_iff.mpr h

theorem dropWhile_eq_self_of_head (p : Char → Bool) (l : List Char)
    (h : ∀ c, l.head? = some c → p c = false) : l.dropWhile p = l := by
  cases l with
  | nil => rfl
  | cons a rest =>
    have := h a (by simp)
    rw [List.dropWhile_cons_of_neg (by simp [this])]

theorem trimL_head (l : List Char) :
    ∀ c, (trimL l).head? = some c → wsChar c = false := by
  intro c hc
  unfold trimL at hc
  set u := l.dropWhile (fun c => wsChar c) with hu
  set w := u.reverse.dropWhile (fun c => wsChar c) with hw
  have hwp : w.reverse <+: u := by
    have hsuf : w <:+ u.reverse := List.dropWhile_suffix _
    rcases hsuf with ⟨t, ht⟩
    refine ⟨t.reverse, ?_⟩
    have := congrArg List.reverse ht
    simpa using this
  rcases hwp with ⟨t, ht⟩
  have hne : w.reverse ≠ [] := by
    intro hcon
    rw [hcon] at hc
    simp at hc
  have hhead : u.head? = some c := by
    rw [← ht, List.head?_append]
    cases hh : w.reverse.head? with
    | none => exact absurd (List.head?_eq_none_iff.mp hh) hne
    | some d =>
      rw [hc] at hh
      simp [hh]
  exact dropWhile_head_not (fun c => wsChar c) l c hhead

theorem trimL_getLast (l : List Char) :
    ∀ c, (trimL l).getLast? = some c → wsChar c = false := by
  intro c hc
  unfold trimL at hc
  rw [List.getLast?_reverse] at hc
  exact dropWhile_head_not _ _ c hc

theorem trimL_eq_self (l : List Char)
    (h1 : ∀ c, l.head? = some c → wsChar c = false)
    (h2 : ∀ c, l.getLast? = some c → wsChar c = false) : trimL l = l := by
  unfold trimL
  rw [dropWhile_eq_self_of_head _ l h1]
  rw [dropWhile_eq_self_of_head _ l.reverse (fun c hc => h2 c (by rwa [List.head?_reverse] at hc))]
  exact List.reverse_reverse l

theorem trimL_idem (l : List Char) : trimL (trimL l) = trimL l :=
  trimL_eq_self (trimL l) (trimL_head l) (trimL_getLast l)

theorem trimL_part (l : List Char) : trimL l <:+: l := by
  unfold trimL
  set u := l.dropWhile (fun c => wsChar c) with hu
  set w := u.reverse.dropWhile (fun c => wsChar c) with hw
  have hwp : w.reverse <+: u := by
    rcases List.dropWhile_suffix (l := u.reverse) (fun c => wsChar c) with ⟨t, ht⟩
    refine ⟨t.reverse, ?_⟩
    have := congrArg List.reverse ht
    simpa [← hw] using this
  exact hwp.isInfix.trans (List.dropWhile_suffix _).isInfix

theorem trimL_append_ws (l : List Char) (c : Char) (hc : wsChar c = true) :
    trimL (l ++ [c]) = trimL l := by
  unfold trimL
  rw [List.dropWhile_append]
  by_cases h : (l.dropWhile (fun c => wsChar c)).isEmpty
  · rw [if_pos h]
    rw [List.isEmpty_iff.mp h]
    simp [List.dropWhile, hc]
  · rw [if_neg h]
    rw [List.reverse_append]
    simp only [List.reverse_singleton, List.singleton_append]
    rw [List.dropWhile_cons_of_pos (by simpa using hc)]

/-! ## Lemmas about decimal digit strings -/

theorem digitCharOf_isDigit (n : Nat) (h : n < 10) : (digitCharOf n).isDigit = true := by
  interval_cases n <;> decide

theorem digitVal_digitCharOf (n : Nat) (h : n < 10) : digitVal (digitCharOf n) = n := by
  interval_cases n <;> decide

theorem natToString_ne_nil (n : Nat) : natToString n ≠ [] := by
  rw [natToString_eq]
  split <;> simp

theorem natToString_all_digits (n : Nat) : ∀ c ∈ natToString n, c.isDigit = true := by
  induction n using Nat.strong_induction_on with
  | _ n ih =>
    rw [natToString_eq]
    split
    · intro c hc
      rw [List.mem_singleton] at hc
      subst hc
      exact digitCharOf_isDigit n (by omega)
    · intro c hc
      rcases List.mem_append.mp hc with h1 | h1
      · exact ih (n / 10) (Nat.div_lt_self (by omega) (by omega)) c h1
      · rw [List.mem_singleton] at h1
        subst h1
        exact digitCharOf_isDigit _ (Nat.mod_lt _ (by omega))

theorem digitsVal_foldl_acc (l : List Char) (acc : Nat) :
    l.foldl (fun a c => 10 * a + digitVal c) acc = acc * 10 ^ l.length + digitsVal l := by
  induction l generalizing acc with
  | nil => simp [digitsVal]
  | cons c rest ih =>
    rw [List.foldl_cons, ih (10 * acc + digitVal c)]
    have h2 : digitsVal (c :: rest) = digitVal c * 10 ^ rest.length + digitsVal rest := by
      show (c :: rest).foldl (fun a c => 10 * a + digitVal c) 0
          = digitVal c * 10 ^ rest.length + digitsVal rest
      rw [List.foldl_cons, ih (10 * 0 + digitVal c)]
      ring_nf
    rw [h2, List.length_cons]
    ring

theorem digitsVal_append (a b : List Char) :
    digitsVal (a ++ b) = digitsVal a * 10 ^ b.length + digitsVal b := by
  show (a ++ b).foldl (fun a c => 10 * a + digitVal c) 0 = _
  rw [List.foldl_append]
  exact digitsVal_foldl_acc b _

theorem digitsVal_replicate_zero (m : Nat) : digitsVal (List.replicate m '0') = 0 := by
  induction m with
  | zero => rfl
  | succ k ih =>
    have : List.replicate (k + 1) '0' = List.replicate k '0' ++ ['0'] := by
      rw [List.replicate_succ']
    rw [this, digitsVal_append, ih]
    rfl

theorem digitsVal_natToString (n : Nat) : digitsVal (natToString n) = n := by
  induction n using Nat.strong_induction_on with
  | _ n ih =>
    rw [natToString_eq]
    split
    · show digitsVal [digitCharOf n] = n
      show List.foldl _ 0 [digitCharOf n] = n
      rw [List.foldl_cons, List.foldl_nil]
      rw [digitVal_digitCharOf n (by omega)]
      omega
    · rw [digitsVal_append, ih (n / 10) (Nat.div_lt_self (by omega) (by omega))]
      have : digitsVal [digitCharOf (n % 10)] = n % 10 := by
        show List.foldl _ 0 [digitCharOf (n % 10)] = n % 10
        rw [List.foldl_cons, List.foldl_nil, digitVal_digitCharOf _ (Nat.mod_lt _ (by omega))]
        omega
      rw [this]
      simp only [List.length_singleton, pow_one]
      omega

theorem digitsVal_padStart (k : Nat) (l : List Char) :
    digitsVal (padStartL k '0' l) = digitsVal l := by
  unfold padStartL
  rw [digitsVal_append, digitsVal_replicate_zero]
  simp

theorem natToString_length_le (k n : Nat) (hk : 1 ≤ k) (h : n < 10 ^ k) :
    (natToString n).length ≤ k := by
  induction k generalizing n with
  | zero => omega
  | succ k ih =>
    rw [natToString_eq]
    split
    · simp
    · rename_i hn
      rw [List.length_append, List.length_singleton]
      have hk1 : 1 ≤ k := by
        rcases Nat.eq_zero_or_pos k with rfl | hpos
        · simp at h
          omega
        · exact hpos
      have hdiv : n / 10 < 10 ^ k := by
        rw [pow_succ] at h
        omega
      have := ih (n / 10) hk1 hdiv
      omega

theorem padStartL_length (w : Nat) (c : Char) (l : List Char) :
    (padStartL w c l).length = max w l.length := by
  unfold padStartL
  rw [List.length_append, List.length_replicate]
  omega

theorem padStartL_all_digits (k : Nat) (l : List Char) (h : ∀ c ∈ l, c.isDigit = true) :
    ∀ c ∈ padStartL k '0' l, c.isDigit = true := by
  intro c hc
  unfold padStartL at hc
  rcases List.mem_append.mp hc with h1 | h1
  · rw [List.eq_of_mem_replicate h1]
    decide
  · exact h c h1

theorem wsChar_eq_false_of_isDigit (c : Char) (h : c.isDigit = true) : wsChar c = false := by
  by_contra hcon
  rw [Bool.not_eq_false, wsChar] at hcon
  simp only [Bool.or_eq_true, decide_eq_true_eq] at hcon
  rcases hcon with ((((((h1 | h1) | h1) | h1) | h1) | h1) | h1) | h1 <;>
    (subst h1; simp [Char.isDigit] at h)

theorem isDigit_ne (c d : Char) (hd : d.isDigit = false) (h : c.isDigit = true) : c ≠ d := by
  intro e
  subst e
  rw [h] at hd
  exact absurd hd (by simp)

/-! ## Round trips between rendering and numeric parsing -/

theorem trimLeft_eq_self (l : List Char)
    (h : ∀ c, l.head? = some c → wsChar c = false) : trimLeft l = l :=
  dropWhile_eq_self_of_head _ l h

theorem signSplit_of_digit (c : Char) (r : List Char) (hc : c.isDigit = true) :
    signSplit (c :: r) = (1, c :: r) := by
  unfold signSplit
  split
  · rename_i heq
    rw [List.cons.injEq] at heq
    exact absurd heq.1 (isDigit_ne c ('-') (by decide) hc)
  · rename_i heq
    rw [List.cons.injEq] at heq
    exact absurd heq.1 (isDigit_ne c ('+') (by decide) hc)
  · rfl

theorem takeWhile_eq_self (p : Char → Bool) (l : List Char) (h : ∀ x ∈ l, p x = true) :
    l.takeWhile p = l := by
  induction l with
  | nil => rfl
  | cons a rest ih =>
    rw [List.takeWhile_cons_of_pos (h a (List.mem_cons_self a rest))]
    rw [ih (fun x hx => h x (List.mem_cons_of_mem a hx))]

theorem takeWhile_append_stop (p : Char → Bool) (A B : List Char) (c : Char)
    (hA : ∀ x ∈ A, p x = true) (hc : p c = false) :
    (A ++ c :: B).takeWhile p = A ∧ (A ++ c :: B).dropWhile p = c :: B := by
  induction A with
  | nil =>
    constructor
    · simp [List.takeWhile_cons, hc]
    · simp [List.dropWhile_cons, hc]
  | cons a A2 ih =>
    have hpa : p a = true := hA a (List.mem_cons_self a A2)
    have h2 := ih (fun x hx => hA x (List.mem_cons_of_mem a hx))
    constructor
    · rw [List.cons_append, List.takeWhile_cons_of_pos hpa, h2.1]
    · rw [List.cons_append, List.dropWhile_cons_of_pos hpa, h2.2]

theorem parseIntL_digits (l : List Char) (hne : l ≠ []) (hd : ∀ c ∈ l, c.isDigit = true) :
    parseIntL l = some ((digitsVal l : Int)) := by
  rcases l with _ | ⟨c, rest⟩
  · exact absurd rfl hne
  have hcd : c.isDigit = true := hd c (List.mem_cons_self c rest)
  have htrim : trimLeft (c :: rest) = c :: rest :=
    trimLeft_eq_self _ (fun x hx => by
      simp at hx
      subst hx
      exact wsChar_eq_false_of_isDigit c hcd)
  have htake : (c :: rest).takeWhile Char.isDigit = c :: rest := takeWhile_eq_self _ _ hd
  simp only [parseIntL, htrim, signSplit_of_digit c rest hcd]
  split
  · rename_i x r heq
    rw [List.cons.injEq] at heq
    have hx : x.isDigit = true := hd x (by
      rw [heq.2]
      exact List.mem_cons_of_mem c (List.mem_cons_self x r))
    rw [if_neg (by
      simp only [Bool.or_eq_true, decide_eq_true_eq]
      rintro (h1 | h1)
      · exact absurd h1 (isDigit_ne x ('x') (by decide) hx)
      · exact absurd h1 (isDigit_ne x ('X') (by decide) hx))]
    rw [htake]
    simp
  · rw [htake]
    rw [if_neg (by simp)]
    simp

theorem parseIntL_pad_natToString (k n : Nat) :
    parseIntL (padStartL k '0' (natToString n)) = some (n : Int) := by
  have h1 : padStartL k '0' (natToString n) ≠ [] := by
    unfold padStartL
    intro hcon
    rcases List.append_eq_nil.mp hcon with ⟨_, h2⟩
    exact natToString_ne_nil n h2
  rw [parseIntL_digits _ h1 (padStartL_all_digits k _ (natToString_all_digits n))]
  rw [digitsVal_padStart, digitsVal_natToString]

theorem parseFloatL_digits_frac (a b : List Char) (hane : a ≠ [])
    (ha : ∀ c ∈ a, c.isDigit = true) (hb : ∀ c ∈ b, c.isDigit = true) :
    parseFloatL (a ++ '.' :: b) =
      some ((digitsVal a : Rat) + (digitsVal b : Rat) / (10 : Rat) ^ b.length) := by
  rcases a with _ | ⟨c, arest⟩
  · exact absurd rfl hane
  have hcd : c.isDigit = true := ha c (List.mem_cons_self c arest)
  have htrim : trimLeft ((c :: arest) ++ '.' :: b) = (c :: arest) ++ '.' :: b :=
    trimLeft_eq_self _ (fun x hx => by
      simp at hx
      subst hx
      exact wsChar_eq_false_of_isDigit c hcd)
  have hsplit := takeWhile_append_stop Char.isDigit (c :: arest) b ('.') ha (by decide)
  have hsgn : signSplit ((c :: arest) ++ '.' :: b) = (1, (c :: arest) ++ '.' :: b) := by
    rw [List.cons_append]
    exact signSplit_of_digit c (arest ++ '.' :: b) hcd
  have hfb : b.takeWhile Char.isDigit = b := takeWhile_eq_self _ b hb
  have hdb : b.dropWhile Char.isDigit = [] := by
    have htd := List.takeWhile_append_dropWhile (p := Char.isDigit) (l := b)
    rw [hfb] at htd
    have hlen := congrArg List.length htd
    rw [List.length_append] at hlen
    rcases List.eq_nil_or_concat (b.dropWhile Char.isDigit) with hnil | ⟨_, _, hcc⟩
    · exact hnil
    · rw [hcc] at hlen
      simp at hlen
  simp only [parseFloatL, htrim, hsgn, hsplit.1, hsplit.2, hfb, hdb]
  rw [if_neg (by
    simp only [Bool.and_eq_true, List.isEmpty_iff]
    rintro ⟨h1, -⟩
    simp at h1)]
  have hre : readExp [] = 0 := rfl
  rw [hre]
  push_cast
  ring_nf

theorem parseFloatL_pad_pair (s f : Nat) (hf : f < 1000) :
    parseFloatL (padStartL 2 '0' (natToString s) ++ '.' :: padStartL 3 '0' (natToString f)) =
      some ((s : Rat) + (f : Rat) / 1000) := by
  have h1 : padStartL 2 '0' (natToString s) ≠ [] := by
    unfold padStartL
    intro hcon
    rcases List.append_eq_nil.mp hcon with ⟨_, h2⟩
    exact natToString_ne_nil s h2
  rw [parseFloatL_digits_frac _ _ h1
    (padStartL_all_digits 2 _ (natToString_all_digits s))
    (padStartL_all_digits 3 _ (natToString_all_digits f))]
  rw [digitsVal_padStart, digitsVal_padStart, digitsVal_natToString, digitsVal_natToString]
  have hlen : (padStartL 3 '0' (natToString f)).length = 3 := by
    rw [padStartL_length]
    have := natToString_length_le 3 f (by omega) (by norm_num; omega)
    omega
  rw [hlen]
  norm_num

/-! ## Normal forms of the two timestamp formatters -/

theorem int_tdiv_natCast (a b : Nat) : Int.tdiv (a : Int) (b : Int) = ((a / b : Nat) : Int) := rfl

theorem jsRemInt_natCast (a b : Nat) : jsRemInt (a : Int) (b : Int) = ((a % b : Nat) : Int) := by
  unfold jsRemInt
  rw [int_tdiv_natCast]
  have h2 : (b : Int) * ((a / b : Nat) : Int) + ((a % b : Nat) : Int) = (a : Int) := by
    exact_mod_cast Nat.div_add_mod a b
  linarith

theorem intToString_natCast (n : Nat) : intToString (n : Int) = natToString n := by
  unfold intToString
  rw [if_neg (by omega)]
  simp

theorem floor_div_natCast (ms : Rat) (h : 0 ≤ ms) (k : Nat) :
    Int.floor (ms / (k : Nat)) = ((Nat.floor ms / k : Nat) : Int) := by
  rw [← Int.natCast_floor_eq_floor (by positivity), Nat.floor_div_nat]

theorem jsTruncQ_nonneg (q : Rat) (h : 0 ≤ q) : jsTruncQ q = Int.floor q := by
  unfold jsTruncQ
  rw [if_pos h]

theorem formatVTTTime_nonneg (ms : Rat) (h : 0 ≤ ms) :
    formatVTTTime ms = vttTimeStringOf (Nat.floor ms) := by
  have hM : Int.floor ms = ((Nat.floor ms : Nat) : Int) :=
    (Int.natCast_floor_eq_floor h).symm
  have hts : Int.floor (ms / 1000) = ((Nat.floor ms / 1000 : Nat) : Int) := by
    have := floor_div_natCast ms h 1000
    norm_num at this
    exact this
  have hhours : Int.floor ((((Nat.floor ms / 1000 : Nat) : Int) : Rat) / 3600) =
      ((Nat.floor ms / 1000 / 3600 : Nat) : Int) := by
    have := floor_div_natCast ((Nat.floor ms / 1000 : Nat) : Rat) (by positivity) 3600
    rw [Nat.floor_natCast] at this
    push_cast at this ⊢
    exact this
  have hmins : Int.floor ((((Nat.floor ms / 1000 % 3600 : Nat) : Int) : Rat) / 60) =
      ((Nat.floor ms / 1000 % 3600 / 60 : Nat) : Int) := by
    have := floor_div_natCast ((Nat.floor ms / 1000 % 3600 : Nat) : Rat) (by positivity) 60
    rw [Nat.floor_natCast] at this
    push_cast at this ⊢
    exact this
  have hjr3600 : jsRemInt ((Nat.floor ms / 1000 : Nat) : Int) 3600 =
      ((Nat.floor ms / 1000 % 3600 : Nat) : Int) := by
    exact_mod_cast jsRemInt_natCast (Nat.floor ms / 1000) 3600
  have hjr60 : jsRemInt ((Nat.floor ms / 1000 : Nat) : Int) 60 =
      ((Nat.floor ms / 1000 % 60 : Nat) : Int) := by
    exact_mod_cast jsRemInt_natCast (Nat.floor ms / 1000) 60
  have hmsf : Int.floor (jsRemQ ms 1000) = ((Nat.floor ms % 1000 : Nat) : Int) := by
    have hrem : jsRemQ ms 1000 = ms - 1000 * (((Nat.floor ms / 1000 : Nat) : Int) : Rat) := by
      unfold jsRemQ
      rw [jsTruncQ_nonneg _ (by positivity), hts]
    rw [hrem]
    have hc : (1000 : Rat) * (((Nat.floor ms / 1000 : Nat) : Int) : Rat) =
        (((1000 * (Nat.floor ms / 1000) : Nat) : Int) : Rat) := by push_cast; ring
    rw [hc, Int.floor_sub_int, hM]
    have := Nat.div_add_mod (Nat.floor ms) 1000
    omega
  simp only [formatVTTTime]
  rw [hts, hjr3600, hjr60, hhours, hmins, hmsf]
  simp only [intToString_natCast]
  unfold vttTimeStringOf
  have e1 : Nat.floor ms / 1000 / 3600 = Nat.floor ms / 3600000 := by omega
  have e2 : Nat.floor ms / 1000 % 3600 / 60 = Nat.floor ms / 60000 % 60 := by omega
  rw [e1, e2]

theorem not_mem_of_all_digits (d : Char) (hd : d.isDigit = false) (l : List Char)
    (h : ∀ c ∈ l, c.isDigit = true) : d ∉ l := fun hm => by
  rw [h d hm] at hd
  exact absurd hd (by simp)

theorem timeToSeconds_vtt (M : Nat) :
    timeToSeconds (vttTimeStringOf M) = (M : Rat) / 1000 := by
  have hH := padStartL_all_digits 2 _ (natToString_all_digits (M / 3600000))
  have hMn := padStartL_all_digits 2 _ (natToString_all_digits (M / 60000 % 60))
  have hS := padStartL_all_digits 2 _ (natToString_all_digits (M / 1000 % 60))
  have hF := padStartL_all_digits 3 _ (natToString_all_digits (M % 1000))
  have hc1 : ':' ∉ padStartL 2 '0' (natToString (M / 3600000)) :=
    not_mem_of_all_digits ':' (by decide) _ hH
  have hc2 : ':' ∉ padStartL 2 '0' (natToString (M / 60000 % 60)) :=
    not_mem_of_all_digits ':' (by decide) _ hMn
  have hc3 : ':' ∉ (padStartL 2 '0' (natToString (M / 1000 % 60)) ++ '.' ::
      padStartL 3 '0' (natToString (M % 1000))) := by
    intro hm
    rcases List.mem_append.mp hm with h1 | h1
    · exact not_mem_of_all_digits ':' (by decide) _ hS h1
    · rcases List.mem_cons.mp h1 with h2 | h2
      · exact absurd h2 (by decide)
      · exact not_mem_of_all_digits ':' (by decide) _ hF h2
  have hsplit : splitCharL ':' (vttTimeStringOf M) =
      [padStartL 2 '0' (natToString (M / 3600000)),
       padStartL 2 '0' (natToString (M / 60000 % 60)),
       padStartL 2 '0' (natToString (M / 1000 % 60)) ++ '.' ::
         padStartL 3 '0' (natToString (M % 1000))] := by
    unfold vttTimeStringOf
    rw [splitCharL_append ':' _ _ hc1, splitCharL_append ':' _ _ hc2,
      splitCharL_single ':' _ hc3]
  unfold timeToSeconds
  rw [hsplit]
  simp only [List.get?, Option.some_bind]
  rw [parseIntL_pad_natToString, parseIntL_pad_natToString,
    parseFloatL_pad_pair _ _ (Nat.mod_lt _ (by omega))]
  simp only [Option.getD_some]
  have key : M / 3600000 * 3600000 + M / 60000 % 60 * 60000 +
      M / 1000 % 60 * 1000 + M % 1000 = M := by omega
  have keyQ : ((M / 3600000 : Nat) : Rat) * 3600000 + ((M / 60000 % 60 : Nat) : Rat) * 60000 +
      ((M / 1000 % 60 : Nat) : Rat) * 1000 + ((M % 1000 : Nat) : Rat) = (M : Rat) := by
    exact_mod_cast key
  simp only [Int.cast_natCast]
  linear_combination keyQ / 1000

theorem mkCue_vtt (c : Cue) (h1 : 0 ≤ c.offset) (h2 : 0 ≤ c.endTime) :
    mkCue (formatVTTTime c.offset) (formatVTTTime c.endTime) =
      { normCue c with text := [] } := by
  have ho : ((Nat.floor c.offset : Nat) : Rat) = ((⌊c.offset⌋ : Int) : Rat) :=
    natCast_floor_eq_intCast_floor h1
  have he : ((Nat.floor c.endTime : Nat) : Rat) = ((⌊c.endTime⌋ : Int) : Rat) :=
    natCast_floor_eq_intCast_floor h2
  simp only [mkCue, normCue]
  rw [formatVTTTime_nonneg _ h1, formatVTTTime_nonneg _ h2,
    timeToSeconds_vtt, timeToSeconds_vtt, ho, he]
  have hco : ((⌊c.offset⌋ : Int) : Rat) / 1000 * 1000 = ((⌊c.offset⌋ : Int) : Rat) :=
    div_mul_cancel₀ _ (by norm_num)
  have hce : ((⌊c.endTime⌋ : Int) : Rat) / 1000 * 1000 = ((⌊c.endTime⌋ : Int) : Rat) :=
    div_mul_cancel₀ _ (by norm_num)
  simp only [Cue.mk.injEq]
  and_intros
  · trivial
  · ring
  · exact hco
  · exact hce
  · rw [hco]
  · rw [hce]

/-! ## Character classes of serializer output lines -/

theorem mem_vttTimeStringOf (M : Nat) :
    ∀ c ∈ vttTimeStringOf M, c.isDigit = true ∨ c = ':' ∨ c = '.' := by
  intro c hc
  unfold vttTimeStringOf at hc
  rcases List.mem_append.mp hc with h1 | h1
  · exact Or.inl (padStartL_all_digits _ _ (natToString_all_digits _) c h1)
  rcases List.mem_cons.mp h1 with h2 | h2
  · exact Or.inr (Or.inl h2)
  rcases List.mem_append.mp h2 with h3 | h3
  · exact Or.inl (padStartL_all_digits _ _ (natToString_all_digits _) c h3)
  rcases List.mem_cons.mp h3 with h4 | h4
  · exact Or.inr (Or.inl h4)
  rcases List.mem_append.mp h4 with h5 | h5
  · exact Or.inl (padStartL_all_digits _ _ (natToString_all_digits _) c h5)
  rcases List.mem_cons.mp h5 with h6 | h6
  · exact Or.inr (Or.inr h6)
  · exact Or.inl (padStartL_all_digits _ _ (natToString_all_digits _) c h6)

theorem not_mem_vtt (M : Nat) (d : Char) (hd : d.isDigit = false) (h1 : d ≠ ':')
    (h2 : d ≠ '.') : d ∉ vttTimeStringOf M := by
  intro hm
  rcases mem_vttTimeStringOf M d hm with h | h | h
  · rw [h] at hd
    exact absurd hd (by simp)
  · exact h1 h
  · exact h2 h

theorem arrowFree_vtt (M : Nat) : containsSeq arrowLit (vttTimeStringOf M) = false := by
  rw [containsSeq_false_iff]
  rintro ⟨i, hi⟩
  have hm : '-' ∈ (vttTimeStringOf M).drop i := hi.subset (by simp [arrowLit])
  exact not_mem_vtt M ('-') (by decide) (by decide) (by decide)
    (List.drop_subset i _ hm)

/-! ## Splitting a serialized timing line -/

theorem splitArrowAux_no_space (l : List Char) (h : ' ' ∉ l) :
    ∀ (fuel : Nat) (acc : List Char), l.length ≤ fuel →
      splitArrowAux fuel l acc = [acc.reverse ++ l] := by
  induction l with
  | nil =>
    intro fuel acc _
    rw [splitArrowAux_nil]
    simp
  | cons c rest ih =>
    intro fuel acc hf
    cases fuel with
    | zero => simp at hf
    | succ f =>
      have hc : ¬(arrowSepL.isPrefixOf (c :: rest) = true) := by
        rw [List.isPrefixOf_iff_prefix]
        intro hp
        rcases hp with ⟨t, ht⟩
        rw [show arrowSepL = ' ' :: ['-', '-', '>', ' '] from rfl] at ht
        rw [List.cons_append, List.cons.injEq] at ht
        exact h (by rw [← ht.1]; exact List.mem_cons_self _ _)
      rw [splitArrowAux, if_neg hc]
      rw [ih (fun hm => h (List.mem_cons_of_mem c hm)) f (c :: acc) (by simp at hf ⊢; omega)]
      simp

theorem splitArrowAux_sep (A B : List Char) (hA : ' ' ∉ A) :
    ∀ (fuel : Nat) (acc : List Char), (A ++ arrowSepL ++ B).length ≤ fuel →
      splitArrowAux fuel (A ++ arrowSepL ++ B) acc =
        (acc.reverse ++ A) :: splitArrowAux B.length B [] := by
  induction A with
  | nil =>
    intro fuel acc hf
    rw [List.nil_append] at hf ⊢
    cases fuel with
    | zero =>
      exfalso
      simp [arrowSepL] at hf
    | succ f =>
      have hform : arrowSepL ++ B = ' ' :: (['-', '-', '>', ' '] ++ B) := rfl
      rw [hform, splitArrowAux,
        if_pos (by rw [List.isPrefixOf_iff_prefix, ← hform]; exact List.prefix_append _ _)]
      have hdrop : List.drop 4 (['-', '-', '>', ' '] ++ B) = B := rfl
      rw [hdrop, splitArrowAux_fuel f B.length B [] (by simp [arrowSepL] at hf; omega)
        (le_refl _)]
      simp
  | cons c A2 ih =>
    intro fuel acc hf
    cases fuel with
    | zero => simp at hf
    | succ f =>
      have hc : ¬(arrowSepL.isPrefixOf (c :: (A2 ++ arrowSepL ++ B)) = true) := by
        rw [List.isPrefixOf_iff_prefix]
        intro hp
        rcases hp with ⟨t, ht⟩
        rw [show arrowSepL = ' ' :: ['-', '-', '>', ' '] from rfl] at ht
        rw [List.cons_append, List.cons.injEq] at ht
        exact hA (by rw [← ht.1]; exact List.mem_cons_self _ _)
      rw [List.cons_append, List.cons_append, splitArrowAux, if_neg hc]
      rw [ih (fun hm => hA (List.mem_cons_of_mem c hm)) f (c :: acc)
        (by simp at hf ⊢; omega)]
      simp

theorem splitArrow_timing (A B : List Char) (hA : ' ' ∉ A) (hB : ' ' ∉ B) :
    splitArrow (A ++ arrowSepL ++ B) = [A, B] := by
  unfold splitArrow
  rw [splitArrowAux_sep A B hA _ [] (le_refl _)]
  rw [splitArrowAux_no_space B hB B.length [] (le_refl _)]
  simp

theorem containsSeq_timing (A B : List Char) :
    containsSeq arrowLit (A ++ arrowSepL ++ B) = true := by
  rw [containsSeq_iff]
  refine ⟨A.length + 1, ?_⟩
  have h1 : A ++ arrowSepL ++ B = A ++ ' ' :: (arrowLit ++ (' ' :: B)) := by
    rw [List.append_assoc]
    rfl
  rw [h1, ← List.drop_drop, List.drop_left]
  simp only [List.drop_succ_cons, List.drop_zero]
  exact List.prefix_append _ _

/-! ## Stepping the parser loop -/

theorem parseLines_nil (cur : Option Cue) (acc : List Cue) :
    parseLines [] cur acc = .ok (acc ++ cur.toList) := rfl

theorem parseLines_step_skip (line : List Char) (rest : List (List Char))
    (cur : Option Cue) (acc : List Cue)
    (h1 : containsSeq arrowLit line = false)
    (h2 : (cur.isSome && !(trimL line).isEmpty && !(webvttLit.isPrefixOf line)
        && !(isIndexLine line)) = false) :
    parseLines (line :: rest) cur acc = parseLines rest cur acc := by
  rw [parseLines, if_neg (by simp [h1]), if_neg (by simp [h2])]

theorem parseLines_step_text (line : List Char) (rest : List (List Char))
    (cur : Option Cue) (acc : List Cue)
    (h1 : containsSeq arrowLit line = false)
    (h2 : (cur.isSome && !(trimL line).isEmpty && !(webvttLit.isPrefixOf line)
        && !(isIndexLine line)) = true) :
    parseLines (line :: rest) cur acc =
      parseLines rest (cur.map (fun c => appendText c line)) acc := by
  rw [parseLines, if_neg (by simp [h1]), if_pos h2]

theorem parseLines_step_timing (line : List Char) (rest : List (List Char))
    (cur : Option Cue) (acc : List Cue) (A B : List Char)
    (h1 : containsSeq arrowLit line = true)
    (h2 : splitArrow line = [A, B]) :
    parseLines (line :: rest) cur acc =
      parseLines rest (some (mkCue A B)) (acc ++ cur.toList) := by
  rw [parseLines, if_pos h1, h2]
  rfl

/-! ## The parser-side textual invariant -/

theorem containsSeq_false_within (pat l1 l2 : List Char) (hinf : l1 <:+: l2)
    (h : containsSeq pat l2 = false) : containsSeq pat l1 = false := by
  rw [containsSeq_false_iff] at h ⊢
  exact fun hocc => h (hocc.mono hinf)

theorem textOk_trim_arrowFree (t : List Char) (h : TextOk t) :
    containsSeq arrowLit (trimL t) = false := by
  rcases h with rfl | ⟨-, h2, -⟩
  · decide
  · exact containsSeq_false_within _ _ _ (trimL_part t) h2

theorem textOk_trim_no_nl (t : List Char) (h : TextOk t) : '\n' ∉ trimL t := by
  rcases h with rfl | ⟨-, -, h3⟩
  · simp [trimL]
  · exact fun hm => h3 ((trimL_part t).subset hm)

/-! ## Parsing the serialized block list -/

theorem isIndexLine_natToString (n : Nat) : isIndexLine (natToString n) = true := by
  have h1 : (natToString n).isEmpty = false := by
    cases hn : natToString n with
    | nil => exact absurd hn (natToString_ne_nil n)
    | cons a l => rfl
  unfold isIndexLine
  rw [h1, List.all_eq_true.mpr (natToString_all_digits n)]
  rfl

theorem cue_update_text (x : Cue) (v : List Char) (h : x.text = v) :
    ({ x with text := v } : Cue) = x := by
  cases x
  simp_all

theorem appendText_of_empty (x : Cue) (line : List Char) :
    appendText ({ x with text := [] } : Cue) line = ({ x with text := line ++ [' '] } : Cue) := by
  cases x
  simp [appendText]

theorem generateVTTBlocks_cons (i : Nat) (c : Cue) (cs : List Cue) :
    generateVTTBlocks i (c :: cs) =
      natToString (i + 1) ::
        (formatVTTTime c.offset ++ arrowSepL ++ formatVTTTime c.endTime) ::
          trimL c.text :: [] :: generateVTTBlocks (i + 1) cs := rfl

theorem parseLines_blocks (cs : List Cue) (hcs : ∀ c ∈ cs, CueOk c) :
    ∀ (i : Nat) (cur : Option Cue) (acc : List Cue),
    parseLines (generateVTTBlocks i cs ++ [[]]) cur acc =
      .ok (acc ++ cur.toList ++ cs.map normCue) := by
  induction cs with
  | nil =>
    intro i cur acc
    show parseLines [[]] cur acc = _
    rw [parseLines_step_skip [] [] cur acc (by decide) (by simp [trimL]),
      parseLines_nil]
    simp
  | cons c cs2 ih =>
    intro i cur acc
    have hc : CueOk c := hcs c (List.mem_cons_self c cs2)
    rcases hc with ⟨ho, he, htext⟩
    rw [generateVTTBlocks_cons]
    simp only [List.cons_append]
    rw [parseLines_step_skip _ _ cur acc
      (arrowFree_of_all_digits _ (natToString_all_digits (i + 1)))
      (by rw [isIndexLine_natToString]; simp)]
    have hsp1 : ' ' ∉ formatVTTTime c.offset := by
      rw [formatVTTTime_nonneg _ ho]
      exact not_mem_vtt _ ' ' (by decide) (by decide) (by decide)
    have hsp2 : ' ' ∉ formatVTTTime c.endTime := by
      rw [formatVTTTime_nonneg _ he]
      exact not_mem_vtt _ ' ' (by decide) (by decide) (by decide)
    rw [parseLines_step_timing _ _ cur acc _ _
      (containsSeq_timing _ _) (splitArrow_timing _ _ hsp1 hsp2)]
    rw [mkCue_vtt c ho he]
    have htrimtrim : trimL (trimL c.text) = trimL c.text := trimL_idem c.text
    have harrow : containsSeq arrowLit (trimL c.text) = false := textOk_trim_arrowFree _ htext
    have hblank : ∀ (r : List (List Char)) (cur2 : Option Cue) (acc2 : List Cue),
        parseLines ([] :: r) cur2 acc2 = parseLines r cur2 acc2 := fun r cur2 acc2 =>
      parseLines_step_skip [] r cur2 acc2 (by decide) (by simp [trimL])
    have ihs := ih (fun x hx => hcs x (List.mem_cons_of_mem c hx))
    have htextval : (normCue c).text = normText (trimL c.text) := rfl
    by_cases hskip : trimL c.text = [] ∨ isIndexLine (trimL c.text) = true ∨
        webvttLit.isPrefixOf (trimL c.text) = true
    · have hnorm : normText (trimL c.text) = [] := by
        unfold normText
        rw [if_pos hskip]
      have hfix : ({ normCue c with text := [] } : Cue) = normCue c :=
        cue_update_text _ _ (by rw [htextval, hnorm])
      rw [parseLines_step_skip _ _ _ _ harrow (by
        rcases hskip with hk | hk | hk
        · rw [htrimtrim, hk]
          simp
        · rw [hk]
          simp
        · rw [hk]
          simp)]
      rw [hblank, hfix, ihs (i + 1) (some (normCue c)) (acc ++ cur.toList)]
      simp
    · push_neg at hskip
      have hnorm : normText (trimL c.text) = trimL c.text ++ [' '] := by
        unfold normText
        rw [if_neg (by
          push_neg
          exact hskip)]
      have hie : (trimL c.text).isEmpty = false :=
        Bool.eq_false_iff.mpr (fun hh => hskip.1 (List.isEmpty_iff.mp hh))
      have hpre : webvttLit.isPrefixOf (trimL c.text) = false :=
        Bool.eq_false_iff.mpr hskip.2.2
      have hidx : isIndexLine (trimL c.text) = false :=
        Bool.eq_false_iff.mpr hskip.2.1
      rw [parseLines_step_text _ _ _ _ harrow (by
        rw [htrimtrim]
        simp [hie, hpre, hidx])]
      rw [Option.map_some', appendText_of_empty,
        cue_update_text _ _ (by rw [htextval, hnorm])]
      rw [hblank, ihs (i + 1) (some (normCue c)) (acc ++ cur.toList)]
      simp

theorem generateVTTBlocks_no_nl (cs : List Cue) (hcs : ∀ c ∈ cs, CueOk c) :
    ∀ i, ∀ l ∈ generateVTTBlocks i cs, '\n' ∉ l := by
  induction cs with
  | nil =>
    intro i l hl
    simp [generateVTTBlocks] at hl
  | cons c cs2 ih =>
    intro i l hl
    rcases hcs c (List.mem_cons_self c cs2) with ⟨ho, he, htext⟩
    rw [generateVTTBlocks_cons] at hl
    rcases List.mem_cons.mp hl with rfl | hl
    · exact not_mem_of_all_digits '\n' (by decide) _ (natToString_all_digits _)
    rcases List.mem_cons.mp hl with rfl | hl
    · intro hm
      rcases List.mem_append.mp hm with h1 | h1
      · rcases List.mem_append.mp h1 with h2 | h2
        · rw [formatVTTTime_nonneg _ ho] at h2
          exact not_mem_vtt _ '\n' (by decide) (by decide) (by decide) h2
        · exact absurd h2 (by decide)
      · rw [formatVTTTime_nonneg _ he] at h1
        exact not_mem_vtt _ '\n' (by decide) (by decide) (by decide) h1
    rcases List.mem_cons.mp hl with rfl | hl
    · exact textOk_trim_no_nl _ htext
    rcases List.mem_cons.mp hl with rfl | hl
    · simp
    · exact ih (fun x hx => hcs x (List.mem_cons_of_mem c hx)) (i + 1) l hl

theorem parseVTT_generateVTTContent (t : List Cue) (h : ∀ c ∈ t, CueOk c) :
    parseVTT (generateVTTContent t) = .ok (t.map normCue) := by
  unfold parseVTT generateVTTContent
  have htl : (String.mk (joinNL ([webvttLit, []] ++ generateVTTBlocks 0 t))).toList
      = joinNL ([webvttLit, []] ++ generateVTTBlocks 0 t) := rfl
  rw [htl, splitCharL_joinNL _ (by
    intro l hl
    rcases List.mem_append.mp hl with h1 | h1
    · rcases List.mem_cons.mp h1 with rfl | h2
      · decide
      · rcases List.mem_cons.mp h2 with rfl | h3
        · simp
        · simp at h3
    · exact generateVTTBlocks_no_nl t h 0 l h1)]
  have hshape : ([webvttLit, []] ++ generateVTTBlocks 0 t) ++ [[]] =
      webvttLit :: [] :: (generateVTTBlocks 0 t ++ [[]]) := by simp
  rw [hshape]
  rw [parseLines_step_skip webvttLit _ none [] (by decide) (by simp)]
  rw [parseLines_step_skip [] _ none [] (by decide) (by simp [trimL])]
  rw [parseLines_blocks t h 0 none []]
  simp

/-! ## Invariants of every cue built by the parser -/

theorem parseLines_inv (P : Cue → Prop)
    (hmk : ∀ s e, P (mkCue s e))
    (happ : ∀ cue line, containsSeq arrowLit line = false → (trimL line).isEmpty = false →
      webvttLit.isPrefixOf line = false → isIndexLine line = false → '\n' ∉ line →
      P cue → P (appendText cue line)) :
    ∀ (lines : List (List Char)) (cur : Option Cue) (acc : List Cue) (t : List Cue),
    (∀ l ∈ lines, '\n' ∉ l) →
    (∀ cue, cur = some cue → P cue) → (∀ cue ∈ acc, P cue) →
    parseLines lines cur acc = .ok t → ∀ cue ∈ t, P cue := by
  intro lines
  induction lines with
  | nil =>
    intro cur acc t _ hcur hacc hp cue hc
    rw [parseLines_nil, Except.ok.injEq] at hp
    subst hp
    rcases List.mem_append.mp hc with h1 | h1
    · exact hacc cue h1
    · cases hcr : cur with
      | none => rw [hcr] at h1; simp at h1
      | some d =>
        rw [hcr] at h1
        simp at h1
        subst h1
        exact hcur cue hcr
  | cons line rest ih =>
    intro cur acc t hnl hcur hacc hp
    have hnlr : ∀ l ∈ rest, '\n' ∉ l := fun l hl => hnl l (List.mem_cons_of_mem line hl)
    by_cases hb : containsSeq arrowLit line = true
    · rw [parseLines, if_pos hb] at hp
      cases hsp : (splitArrow line).get? 1 with
      | none =>
        rw [hsp] at hp
        simp at hp
      | some endStr =>
        rw [hsp] at hp
        refine ih (some (mkCue (((splitArrow line).get? 0).getD []) endStr))
          (acc ++ cur.toList) t hnlr ?_ ?_ hp
        · intro cue2 hc2
          rw [Option.some.injEq] at hc2
          rw [← hc2]
          exact hmk _ _
        · intro cue2 hc2
          rcases List.mem_append.mp hc2 with h1 | h1
          · exact hacc cue2 h1
          · cases hcr : cur with
            | none => rw [hcr] at h1; simp at h1
            | some d =>
              rw [hcr] at h1
              simp at h1
              subst h1
              exact hcur cue2 hcr
    · have hbf : containsSeq arrowLit line = false := Bool.eq_false_iff.mpr hb
      by_cases hcond : (cur.isSome && !(trimL line).isEmpty && !(webvttLit.isPrefixOf line)
          && !(isIndexLine line)) = true
      · rw [parseLines_step_text _ _ _ _ hbf hcond] at hp
        simp only [Bool.and_eq_true, Bool.not_eq_true'] at hcond
        obtain ⟨⟨⟨-, hie⟩, hpre⟩, hidx⟩ := hcond
        refine ih _ acc t hnlr ?_ hacc hp
        intro cue2 hc2
        cases hcr : cur with
        | none => rw [hcr] at hc2; simp at hc2
        | some d =>
          rw [hcr, Option.map_some', Option.some.injEq] at hc2
          rw [← hc2]
          exact happ d line hbf hie hpre hidx (hnl line (List.mem_cons_self line rest))
            (hcur d hcr)
      · have hcf := Bool.eq_false_iff.mpr hcond
        rw [parseLines_step_skip _ _ _ _ hbf hcf] at hp
        exact ih cur acc t hnlr hcur hacc hp

theorem appendText_text (c : Cue) (line : List Char) :
    (appendText c line).text = c.text ++ line ++ [' '] := by
  cases c
  simp [appendText]

theorem appendText_fields (c : Cue) (line : List Char) :
    (appendText c line).duration = c.duration ∧ (appendText c line).offset = c.offset ∧
      (appendText c line).endTime = c.endTime := by
  cases c
  simp [appendText]

theorem parseVTT_duration_eq (x : String) (t : List Cue) (h : parseVTT x = .ok t) :
    ∀ c ∈ t, 1000 * c.duration = c.endTime - c.offset := by
  refine parseLines_inv (fun c => 1000 * c.duration = c.endTime - c.offset) ?_ ?_
    (splitCharL '\n' x.toList) none [] t (splitCharL_not_mem '\n' x.toList)
    (by simp) (by simp) h
  · intro s e
    simp only [mkCue]
    ring
  · intro cue line _ _ _ _ _ hP
    rcases appendText_fields cue line with ⟨h1, h2, h3⟩
    rw [h1, h2, h3]
    exact hP

theorem parseVTT_textOk (x : String) (t : List Cue) (h : parseVTT x = .ok t) :
    ∀ c ∈ t, TextOk c.text := by
  refine parseLines_inv (fun c => TextOk c.text) ?_ ?_
    (splitCharL '\n' x.toList) none [] t (splitCharL_not_mem '\n' x.toList)
    (by simp) (by simp) h
  · intro s e
    exact Or.inl rfl
  · intro cue line hbf hie hpre hidx hnl hP
    refine Or.inr ⟨?_, ?_, ?_⟩
    · rw [appendText_text, List.append_assoc,
        List.getLast?_append_of_ne_nil _ (by simp)]
      exact List.getLast?_concat line
    · rw [appendText_text, List.append_assoc]
      refine arrowFree_append_of_ends_space cue.text (line ++ [' ']) ?_
        (arrowFree_append_space line hbf) ?_
      · rcases hP with he | ⟨-, h2, -⟩
        · rw [he]
          decide
        · exact h2
      · rcases hP with he | ⟨h1, -, -⟩
        · exact Or.inl he
        · exact Or.inr h1
    · rw [appendText_text]
      intro hm
      rcases List.mem_append.mp hm with h1 | h1
      · rcases List.mem_append.mp h1 with h2 | h2
        · rcases hP with he | ⟨-, -, h3⟩
          · rw [he] at h2
            simp at h2
          · exact h3 h2
        · exact hnl h2
      · simp at h1

theorem parseVTT_text_join (x : String) (t : List Cue) (h : parseVTT x = .ok t) :
    ∀ c ∈ t, ∃ ls, (∀ l ∈ ls, (trimL l).isEmpty = false ∧ '\n' ∉ l) ∧ c.text = joinSp ls := by
  refine parseLines_inv
    (fun c => ∃ ls, (∀ l ∈ ls, (trimL l).isEmpty = false ∧ '\n' ∉ l) ∧ c.text = joinSp ls)
    ?_ ?_ (splitCharL '\n' x.toList) none [] t (splitCharL_not_mem '\n' x.toList)
    (by simp) (by simp) h
  · intro s e
    exact ⟨[], by simp, rfl⟩
  · rintro cue line hbf hie hpre hidx hnl ⟨ls, hls, heq⟩
    refine ⟨ls ++ [line], ?_, ?_⟩
    · intro l hl
      rcases List.mem_append.mp hl with h1 | h1
      · exact hls l h1
      · rw [List.mem_singleton] at h1
        subst h1
        exact ⟨hie, hnl⟩
    · rw [appendText_text, heq]
      simp [joinSp]

/-! ## A round-tripped cue is round-trippable and a fixed point -/

theorem cueOk_normCue (c : Cue) (h : CueOk c) : CueOk (normCue c) := by
  rcases h with ⟨h1, h2, h3⟩
  refine ⟨?_, ?_, ?_⟩
  · show (0 : Rat) ≤ ((⌊c.offset⌋ : Int) : Rat)
    exact_mod_cast Int.floor_nonneg.mpr h1
  · show (0 : Rat) ≤ ((⌊c.endTime⌋ : Int) : Rat)
    exact_mod_cast Int.floor_nonneg.mpr h2
  · show TextOk (normText (trimL c.text))
    unfold normText
    split
    · exact Or.inl rfl
    · refine Or.inr ⟨List.getLast?_concat _, arrowFree_append_space _
        (textOk_trim_arrowFree _ h3), ?_⟩
      intro hm
      rcases List.mem_append.mp hm with hx | hx
      · exact textOk_trim_no_nl _ h3 hx
      · simp at hx

theorem normCue_idem (c : Cue) (h : CueOk c) : normCue (normCue c) = normCue c := by
  rcases h with ⟨-, -, h3⟩
  have hoff : (normCue c).offset = ((⌊c.offset⌋ : Int) : Rat) := rfl
  have hend : (normCue c).endTime = ((⌊c.endTime⌋ : Int) : Rat) := rfl
  have htxt : (normCue c).text = normText (trimL c.text) := rfl
  have hfo : ⌊(normCue c).offset⌋ = ⌊c.offset⌋ := by rw [hoff, Int.floor_intCast]
  have hfe : ⌊(normCue c).endTime⌋ = ⌊c.endTime⌋ := by rw [hend, Int.floor_intCast]
  have htt : trimL ((normCue c).text) = trimL (normText (trimL c.text)) := by rw [htxt]
  have htn : normText (trimL ((normCue c).text)) = normText (trimL c.text) := by
    rw [htt]
    unfold normText
    split
    · rw [show trimL ([] : List Char) = [] from rfl]
      rw [if_pos (Or.inl rfl)]
    · rename_i hng
      push_neg at hng
      have h1 : trimL (trimL c.text ++ [' ']) = trimL c.text := by
        rw [trimL_append_ws _ ' ' (by decide), trimL_idem]
      rw [h1, if_neg (by push_neg; exact hng)]
  show Cue.mk _ _ _ _ _ _ = Cue.mk _ _ _ _ _ _
  rw [Cue.mk.injEq]
  refine ⟨htn, ?_, ?_, ?_, ?_, ?_⟩
  · rw [hfo, hfe]
  · rw [hfo]
  · rw [hfe]
  · rw [hfo]
  · rw [hfe]

/-! ## Claim C1 -/

/-- C1 counterexample: parsing the payload from the specification yields
exactly one cue with start offset 1000 and end offset 3500, but its
`duration` field is `5/2` — seconds, not the claimed
`endMs − startMs = 2500` milliseconds, so the claimed per-cue equation
`durationMs = endMs − startMs` is false on this cue. -/
theorem claim1_counterexample :
    parseVTT samplePayload = .ok [sampleCue] ∧
      ¬(sampleCue.duration = sampleCue.endTime - sampleCue.offset) :=
  ⟨by rfl, by decide⟩

/-- C1 amended: parsing the payload yields exactly one cue with
`offset = 1000` ms, `endTime = 3500` ms, a `duration` field of `5/2`
seconds, and text containing the words; in general, for every cue the
parser produces, `1000 * duration = endMs − startMs`, i.e. the duration
field is `(endMs − startMs) / 1000`. -/
theorem claim1_amended :
    (∀ (x : String) (t : List Cue), parseVTT x = .ok t →
      ∀ c ∈ t, 1000 * c.duration = c.endTime - c.offset) ∧
    (parseVTT samplePayload = .ok [sampleCue] ∧ sampleCue.offset = 1000 ∧
      sampleCue.endTime = 3500 ∧ sampleCue.duration = 5 / 2 ∧
      containsSeq (("Hello world").toList) sampleCue.text = true) :=
  ⟨fun x t h => parseVTT_duration_eq x t h,
    by rfl, by decide, by decide, by decide, by decide⟩

theorem claim1_witness :
    1000 * sampleCue.duration = sampleCue.endTime - sampleCue.offset :=
  claim1_amended.1 samplePayload [sampleCue] (by rfl) sampleCue (by decide)

/-! ## Claim C2 -/

/-- C2 counterexample: the two-field timestamp `"01:02.500"` parses to
3720 seconds (1 hour, 2 minutes), not to the claimed 1 minute plus 2.5
seconds = 62.5 seconds: `timeToSeconds` assigns the leftmost field as
hours even when only two fields are present. -/
theorem claim2_counterexample :
    timeToSeconds (("01:02.500").toList) = 3720 ∧
      ¬(timeToSeconds (("01:02.500").toList) = 1 * 60 + 5 / 2) :=
  ⟨by decide, by decide⟩

/-- C2 amended: `timeToSeconds` splits on a colon and assigns fields
left to right by position — the first field is hours, the second
minutes, the third seconds — with missing trailing fields defaulting to
0; a two-field input therefore parses as hours and minutes (so
`"01:02.500"` gives 3720 seconds), not as minutes and seconds. -/
theorem claim2_amended :
    (∀ p0 p1 : List Char, ':' ∉ p0 → ':' ∉ p1 →
      timeToSeconds (p0 ++ ':' :: p1) =
        (((parseIntL p0).getD 0 : Int) : Rat) * 3600 +
          (((parseIntL p1).getD 0 : Int) : Rat) * 60) ∧
    (∀ p0 p1 p2 : List Char, ':' ∉ p0 → ':' ∉ p1 → ':' ∉ p2 →
      timeToSeconds (p0 ++ ':' :: (p1 ++ ':' :: p2)) =
        (((parseIntL p0).getD 0 : Int) : Rat) * 3600 +
          (((parseIntL p1).getD 0 : Int) : Rat) * 60 + (parseFloatL p2).getD 0) ∧
    timeToSeconds (("01:02.500").toList) = 3720 := by
  refine ⟨?_, ?_, by decide⟩
  · intro p0 p1 h0 h1
    unfold timeToSeconds
    rw [splitCharL_append ':' p0 p1 h0, splitCharL_single ':' p1 h1]
    simp [List.get?]
  · intro p0 p1 p2 h0 h1 h2
    unfold timeToSeconds
    rw [splitCharL_append ':' p0 _ h0, splitCharL_append ':' p1 p2 h1,
      splitCharL_single ':' p2 h2]
    simp [List.get?]

theorem claim2_witness :
    timeToSeconds (("01").toList ++ ':' :: ("02.500").toList) =
      (((parseIntL (("01").toList)).getD 0 : Int) : Rat) * 3600 +
        (((parseIntL (("02.500").toList)).getD 0 : Int) : Rat) * 60 :=
  claim2_amended.1 (("01").toList) (("02.500").toList) (by decide) (by decide)

/-! ## Claim C5 -/

/-- C5 counterexample: a cue-timing line containing the separator
without surrounding spaces splits into a single part, so the end
timestamp is undefined, and the extraction throws instead of silently
yielding 0 — the whole transcript parse aborts with an error. -/
theorem claim5_counterexample :
    (splitArrow (("00:00:01.000-->00:00:03.500").toList)).get? 1 = none ∧
      parseVTT badPayload =
        .error ("TypeError: undefined is not a string in timeToSeconds") :=
  ⟨by decide, by rfl⟩

/-- C5 amended: `timeToSeconds` itself never raises on a string — when
every colon-separated field is non-numeric it silently yields 0 — but a
cue-timing line containing the separator without the surrounding spaces
leaves the end timestamp undefined, and the subsequent call throws,
aborting the whole transcript extraction. -/
theorem claim5_amended :
    (∀ s : List Char,
      (∀ p ∈ splitCharL ':' s, parseIntL p = none ∧ parseFloatL p = none) →
      timeToSeconds s = 0) ∧
    parseVTT badPayload =
      .error ("TypeError: undefined is not a string in timeToSeconds") := by
  refine ⟨?_, by rfl⟩
  intro s h
  simp only [timeToSeconds]
  have h0 : ((splitCharL ':' s).get? 0).bind parseIntL = none := by
    cases hg : (splitCharL ':' s).get? 0 with
    | none => rfl
    | some p => simp [(h p (List.get?_mem hg)).1]
  have h1 : ((splitCharL ':' s).get? 1).bind parseIntL = none := by
    cases hg : (splitCharL ':' s).get? 1 with
    | none => rfl
    | some p => simp [(h p (List.get?_mem hg)).1]
  have h2 : ((splitCharL ':' s).get? 2).bind parseFloatL = none := by
    cases hg : (splitCharL ':' s).get? 2 with
    | none => rfl
    | some p => simp [(h p (List.get?_mem hg)).2]
  rw [h0, h1, h2]
  norm_num

theorem claim5_witness : timeToSeconds (("ab:cd").toList) = 0 :=
  claim5_amended.1 (("ab:cd").toList) (by decide)

/-! ## Claim C6 -/

/-- C6 counterexample: the single cue returned for the specification
payload has text with a trailing space — the text in the returned
transcript is not trimmed. -/
theorem claim6_counterexample :
    parseVTT samplePayload = .ok [sampleCue] ∧
      ¬(trimL sampleCue.text = sampleCue.text) :=
  ⟨by rfl, by decide⟩

/-- C6 amended: every cue text in the returned transcript is the
concatenation of its non-blank source lines, each followed by exactly
one space — so multi-line text is single-space-joined but a trailing
space remains (the example cue text is the source line plus a trailing
space); trimming happens only when the transcript is re-serialized. -/
theorem claim6_amended :
    (∀ (x : String) (t : List Cue), parseVTT x = .ok t → ∀ c ∈ t,
      ∃ ls, (∀ l ∈ ls, (trimL l).isEmpty = false ∧ '\n' ∉ l) ∧ c.text = joinSp ls) ∧
    (parseVTT samplePayload = .ok [sampleCue] ∧
      sampleCue.text = ("Hello world").toList ++ [' ']) :=
  ⟨fun x t h => parseVTT_text_join x t h, by rfl, by decide⟩

theorem claim6_witness :
    ∃ ls, (∀ l ∈ ls, (trimL l).isEmpty = false ∧ '\n' ∉ l) ∧ sampleCue.text = joinSp ls :=
  claim6_amended.1 samplePayload [sampleCue] (by rfl) sampleCue (by decide)

/-! ## Claim C7 -/

/-- C7: whenever the external lister exits with a non-zero status or
fails to launch, the availability check resolves with no subtitles and
an empty language list; being a total function into the result record,
it never produces a hard failure. -/
theorem claim7_availability :
    (∀ (code : Int) (stdout : String) (language : List Char), code ≠ 0 →
      checkSubtitlesAvailability language (.exit code stdout) =
        { hasSubtitles := false, availableLanguages := [] }) ∧
    ∀ language : List Char, checkSubtitlesAvailability language .launchError =
      { hasSubtitles := false, availableLanguages := [] } := by
  constructor
  · intro code stdout language h
    simp only [checkSubtitlesAvailability]
    rw [if_neg h]
  · intro language
    rfl

theorem claim7_witness :
    checkSubtitlesAvailability (("en").toList) (.exit 1 ("ERROR: no video")) =
      { hasSubtitles := false, availableLanguages := [] } :=
  claim7_availability.1 1 ("ERROR: no video") (("en").toList) (by decide)

/-! ## Claim C3 -/

/-- C3 counterexample: on the specification listing (a manual-subtitles
section, a blank line, then an automatic-captions section) requesting
"en" yields `hasMatch = false` and collects neither "en" nor "en-US":
the blank line executes a `break` that ends the whole scan, and the
manual line contains no colon, so the claimed outcome is false. -/
theorem claim3_counterexample :
    ¬((checkSubtitlesAvailability (("en").toList)
        (.exit 0 sampleListing)).hasSubtitles = true ∧
      ("en").toList ∈ (checkSubtitlesAvailability (("en").toList)
        (.exit 0 sampleListing)).availableLanguages ∧
      ("en-US").toList ∈ (checkSubtitlesAvailability (("en").toList)
        (.exit 0 sampleListing)).availableLanguages) := by decide

/-- C3 amended: a blank line reached while inside either section stops
the scan of the entire listing — the remaining lines, including any
later section, are discarded — and a manual-subtitles line is parsed
only when it contains a colon; on the specification listing the result
is therefore `hasMatch = false` and `availableLanguages = []`. -/
theorem claim3_amended :
    (∀ (inSubs inCaps : Bool) (line : List Char) (rest : List (List Char)),
      (inSubs || inCaps) = true → containsSeq availSubsLit line = false →
      containsSeq availCapsLit line = false → trimL line = [] →
      scanSubsLines inSubs inCaps (line :: rest) = []) ∧
    checkSubtitlesAvailability (("en").toList) (.exit 0 sampleListing) =
      { hasSubtitles := false, availableLanguages := [] } := by
  refine ⟨?_, by decide⟩
  intro inSubs inCaps line rest hflag hs hc htrim
  rw [scanSubsLines, if_neg (by simp [hs]), if_neg (by simp [hc]),
    if_pos (by simp [hflag, htrim])]

theorem claim3_witness :
    scanSubsLines true false ([] :: [("en-US   English (auto)").toList]) = [] :=
  claim3_amended.1 true false [] [("en-US   English (auto)").toList]
    (by decide) (by decide) (by decide) (by decide)

/-! ## Claim C4 -/

/-- C4 counterexample: with a file system in which the first candidate
(base + ".en.vtt") exists but is a zero-byte file and the bare
candidate (base + ".vtt") exists with content, resolution picks the
empty first candidate: an existing zero-byte candidate is not skipped,
because the buffer returned by the read is an object and hence truthy. -/
theorem claim4_counterexample :
    findVttFile sampleFs sampleBase (("en").toList) =
        some (sampleBase ++ (".en.vtt").toList) ∧
      sampleFs (sampleBase ++ (".en.vtt").toList) = some [] ∧
      ¬(findVttFile sampleFs sampleBase (("en").toList) =
        some (sampleBase ++ (".vtt").toList)) :=
  ⟨by decide, by decide, by decide⟩

/-- C4 amended: after a reported-successful download the candidate
paths base+".{language}.vtt", base+".en.vtt", base+".vtt" are probed in
that priority order and resolution returns the first candidate that
exists — regardless of its size; when only the bare ".vtt" candidate
exists it is the resolved path, and when no candidate exists the
pipeline reports the artifact-missing failure. -/
theorem claim4_amended :
    (∀ (fs : List Char → Option (List Char)) (tempBase language content : List Char),
      fs (tempBase ++ (('.' :: language) ++ (".vtt").toList)) = some content →
      findVttFile fs tempBase language =
        some (tempBase ++ (('.' :: language) ++ (".vtt").toList))) ∧
    (∀ (fs : List Char → Option (List Char)) (tempBase language content : List Char),
      fs (tempBase ++ (('.' :: language) ++ (".vtt").toList)) = none →
      fs (tempBase ++ (".en.vtt").toList) = some content →
      findVttFile fs tempBase language = some (tempBase ++ (".en.vtt").toList)) ∧
    (∀ (fs : List Char → Option (List Char)) (tempBase language content : List Char),
      fs (tempBase ++ (('.' :: language) ++ (".vtt").toList)) = none →
      fs (tempBase ++ (".en.vtt").toList) = none →
      fs (tempBase ++ (".vtt").toList) = some content →
      findVttFile fs tempBase language = some (tempBase ++ (".vtt").toList)) ∧
    (∀ (fs : List Char → Option (List Char)) (tempBase language : List Char),
      fs (tempBase ++ (('.' :: language) ++ (".vtt").toList)) = none →
      fs (tempBase ++ (".en.vtt").toList) = none →
      fs (tempBase ++ (".vtt").toList) = none →
      resolveVttFile fs tempBase language =
        .error ("Subtitle file not found after download (tried base path)")) := by
  refine ⟨?_, ?_, ?_, ?_⟩
  · intro fs tempBase language content h1
    simp at h1
    unfold findVttFile possibleExtensions
    simp [List.find?_cons, h1]
  · intro fs tempBase language content h1 h2
    simp at h1 h2
    unfold findVttFile possibleExtensions
    simp [List.find?_cons, h1, h2]
  · intro fs tempBase language content h1 h2 h3
    simp at h1 h2 h3
    unfold findVttFile possibleExtensions
    simp [List.find?_cons, h1, h2, h3]
  · intro fs tempBase language h1 h2 h3
    simp at h1 h2 h3
    have hfind : findVttFile fs tempBase language = none := by
      unfold findVttFile possibleExtensions
      simp [List.find?_cons, h1, h2, h3]
    unfold resolveVttFile
    rw [hfind]

theorem claim4_witness :
    findVttFile
      (fun p => if p = sampleBase ++ (".vtt").toList then some (("WEBVTT").toList) else none)
      sampleBase (("fr").toList) = some (sampleBase ++ (".vtt").toList) :=
  claim4_amended.2.2.1
    (fun p => if p = sampleBase ++ (".vtt").toList then some (("WEBVTT").toList) else none)
    sampleBase (("fr").toList) (("WEBVTT").toList) (by decide) (by decide) (by decide)

/-! ## Claim C10 -/

theorem parseLines_no_arrow (lines : List (List Char))
    (h : ∀ l ∈ lines, containsSeq arrowLit l = false) :
    ∀ acc, parseLines lines none acc = .ok acc := by
  induction lines with
  | nil =>
    intro acc
    rw [parseLines_nil]
    simp
  | cons line rest ih =>
    intro acc
    rw [parseLines_step_skip line rest none acc (h line (List.mem_cons_self line rest))
      (by simp)]
    exact ih (fun l hl => h l (List.mem_cons_of_mem line hl)) acc

/-- C10: when saving was requested and the payload contains no timing
lines, the assembled result still reports `available = true` with file
name `videoId_language.vtt`, the transcript is empty, and the attached
VTT content is the empty string — the serializer is skipped entirely
(on an empty transcript it would still emit the nonempty header). -/
theorem claim10_emptyTranscript (videoId language : List Char) (payload : String)
    (h : ∀ line ∈ splitCharL '\n' payload.toList, containsSeq arrowLit line = false) :
    buildSubtitlesResult videoId language true payload =
      .ok { videoId := videoId, language := language, available := true, transcript := [],
            vttContent := some (""),
            fileName := some (videoId ++ ('_' :: language) ++ (".vtt").toList) } ∧
    generateVTTContent [] ≠ ("") := by
  constructor
  · have hparse : parseVTT payload = .ok [] := parseLines_no_arrow _ h []
    unfold buildSubtitlesResult
    rw [hparse]
    rfl
  · decide

theorem claim10_witness :
    buildSubtitlesResult (("vid123").toList) (("en").toList) true ("WEBVTT\nNOTE x\n") =
      .ok { videoId := ("vid123").toList, language := ("en").toList, available := true,
            transcript := [], vttContent := some (""),
            fileName := some (("vid123").toList ++ ('_' :: ("en").toList) ++ (".vtt").toList) } ∧
    generateVTTContent [] ≠ ("") :=
  claim10_emptyTranscript (("vid123").toList) (("en").toList) ("WEBVTT\nNOTE x\n") (by decide)

/-! ## Claim C8 -/

theorem formatTime_nonneg (ms : Rat) (h : 0 ≤ ms) :
    formatTime ms = if Nat.floor ms < 3600000 then shortTimeStringOf (Nat.floor ms)
      else vttTimeStringOf (Nat.floor ms) := by
  have hM : Int.floor ms = ((Nat.floor ms : Nat) : Int) :=
    (Int.natCast_floor_eq_floor h).symm
  have hts : Int.floor (ms / 1000) = ((Nat.floor ms / 1000 : Nat) : Int) := by
    have := floor_div_natCast ms h 1000
    norm_num at this
    exact this
  have hhours : Int.floor ((((Nat.floor ms / 1000 : Nat) : Int) : Rat) / 3600) =
      ((Nat.floor ms / 1000 / 3600 : Nat) : Int) := by
    have := floor_div_natCast ((Nat.floor ms / 1000 : Nat) : Rat) (by positivity) 3600
    rw [Nat.floor_natCast] at this
    push_cast at this ⊢
    exact this
  have hmins : Int.floor ((((Nat.floor ms / 1000 % 3600 : Nat) : Int) : Rat) / 60) =
      ((Nat.floor ms / 1000 % 3600 / 60 : Nat) : Int) := by
    have := floor_div_natCast ((Nat.floor ms / 1000 % 3600 : Nat) : Rat) (by positivity) 60
    rw [Nat.floor_natCast] at this
    push_cast at this ⊢
    exact this
  have hjr3600 : jsRemInt ((Nat.floor ms / 1000 : Nat) : Int) 3600 =
      ((Nat.floor ms / 1000 % 3600 : Nat) : Int) := by
    exact_mod_cast jsRemInt_natCast (Nat.floor ms / 1000) 3600
  have hjr60 : jsRemInt ((Nat.floor ms / 1000 : Nat) : Int) 60 =
      ((Nat.floor ms / 1000 % 60 : Nat) : Int) := by
    exact_mod_cast jsRemInt_natCast (Nat.floor ms / 1000) 60
  have hmsf : Int.floor (jsRemQ ms 1000) = ((Nat.floor ms % 1000 : Nat) : Int) := by
    have hrem : jsRemQ ms 1000 = ms - 1000 * (((Nat.floor ms / 1000 : Nat) : Int) : Rat) := by
      unfold jsRemQ
      rw [jsTruncQ_nonneg _ (by positivity), hts]
    rw [hrem]
    have hc : (1000 : Rat) * (((Nat.floor ms / 1000 : Nat) : Int) : Rat) =
        (((1000 * (Nat.floor ms / 1000) : Nat) : Int) : Rat) := by push_cast; ring
    rw [hc, Int.floor_sub_int, hM]
    have := Nat.div_add_mod (Nat.floor ms) 1000
    omega
  simp only [formatTime]
  rw [hts, hjr3600, hjr60, hhours, hmins, hmsf]
  simp only [intToString_natCast]
  by_cases hb : Nat.floor ms < 3600000
  · rw [if_neg (by
      rw [Int.lt_iff_add_one_le]
      intro hcon
      have : 1 ≤ Nat.floor ms / 1000 / 3600 := by exact_mod_cast hcon
      omega), if_pos hb]
    unfold shortTimeStringOf
    have e3 : Nat.floor ms / 1000 % 3600 / 60 = Nat.floor ms / 60000 := by omega
    rw [e3]
  · rw [if_pos (by
      have h1 : 1 ≤ Nat.floor ms / 1000 / 3600 := by omega
      exact_mod_cast Nat.lt_of_lt_of_le Nat.zero_lt_one h1), if_neg hb]
    unfold vttTimeStringOf
    have e1 : Nat.floor ms / 1000 / 3600 = Nat.floor ms / 3600000 := by omega
    have e2 : Nat.floor ms / 1000 % 3600 / 60 = Nat.floor ms / 60000 % 60 := by omega
    rw [e1, e2]

theorem pad2_length (n : Nat) (h : n < 100) :
    (padStartL 2 '0' (natToString n)).length = 2 := by
  rw [padStartL_length]
  have := natToString_length_le 2 n (by omega) (by norm_num; omega)
  omega

theorem pad3_length (n : Nat) (h : n < 1000) :
    (padStartL 3 '0' (natToString n)).length = 3 := by
  rw [padStartL_length]
  have := natToString_length_le 3 n (by omega) (by norm_num; omega)
  omega

theorem shortTimeStringOf_length (M : Nat) (h : M < 3600000) :
    (shortTimeStringOf M).length = 9 := by
  unfold shortTimeStringOf
  rw [List.length_append, List.length_cons, List.length_append, List.length_cons]
  rw [pad2_length _ (by omega), pad2_length _ (by omega), pad3_length _ (by omega)]

theorem vttTimeStringOf_length_ge (M : Nat) : 12 ≤ (vttTimeStringOf M).length := by
  unfold vttTimeStringOf
  rw [List.length_append, List.length_cons, List.length_append, List.length_cons,
    List.length_append, List.length_cons]
  rw [padStartL_length, padStartL_length, padStartL_length, padStartL_length]
  omega

/-- C8: for every nonnegative integral millisecond count, the display
formatter omits the hours field exactly when the value is below one
hour — the output then has the nine-character `"MM:SS.mmm"` shape, and
otherwise the `"HH:MM:SS.mmm"` shape — with the minutes, seconds and
milliseconds fields zero-padded to widths 2, 2 and 3, and the hours
field zero-padded to width at least 2. -/
theorem claim8_formatTime (ms : Nat) :
    ((formatTime (ms : Rat)).length = 9 ↔ ms < 3600000) ∧
    (ms < 3600000 → formatTime (ms : Rat) = shortTimeStringOf ms) ∧
    (3600000 ≤ ms → formatTime (ms : Rat) = vttTimeStringOf ms) ∧
    (padStartL 2 '0' (natToString (ms / 60000 % 60))).length = 2 ∧
    (padStartL 2 '0' (natToString (ms / 1000 % 60))).length = 2 ∧
    (padStartL 3 '0' (natToString (ms % 1000))).length = 3 ∧
    2 ≤ (padStartL 2 '0' (natToString (ms / 3600000))).length := by
  have heq := formatTime_nonneg (ms : Rat) (by positivity)
  rw [Nat.floor_natCast] at heq
  refine ⟨?_, ?_, ?_, pad2_length _ (by omega), pad2_length _ (by omega),
    pad3_length _ (by omega), by rw [padStartL_length]; omega⟩
  · constructor
    · intro hl
      by_contra hcon
      rw [heq, if_neg hcon] at hl
      have := vttTimeStringOf_length_ge ms
      omega
    · intro hc
      rw [heq, if_pos hc]
      exact shortTimeStringOf_length ms hc
  · intro h
    rw [heq, if_pos h]
  · intro h
    rw [heq, if_neg (by omega)]

theorem claim8_witness :
    (3599999 < 3600000 ∧ formatTime ((3599999 : Nat) : Rat) = shortTimeStringOf 3599999) ∧
      (3600000 ≤ 3600000 ∧ formatTime ((3600000 : Nat) : Rat) = vttTimeStringOf 3600000) :=
  ⟨⟨by decide, (claim8_formatTime 3599999).2.1 (by decide)⟩,
    ⟨by decide, (claim8_formatTime 3600000).2.2.1 (by decide)⟩⟩

/-! ## Claim C9 -/

/-- C9: for every payload that parses successfully into cues with
nonnegative timestamps (the well-formed cue-timing payloads of the
claim), serializing with the fixed-width formatter and re-parsing
reaches a fixed point after one round:
`parse (serialize (parse x))` equals
`parse (serialize (parse (serialize (parse x))))` — both sides are the
same cue list, obtained by the first serialize-parse round. -/
theorem claim9_roundtrip (x : String) (t : List Cue) (h1 : parseVTT x = .ok t)
    (h2 : ∀ c ∈ t, 0 ≤ c.offset ∧ 0 ≤ c.endTime) :
    ∃ t1, parseVTT (generateVTTContent t) = .ok t1 ∧
      parseVTT (generateVTTContent t1) = .ok t1 := by
  have htext := parseVTT_textOk x t h1
  have hok : ∀ c ∈ t, CueOk c := fun c hc => ⟨(h2 c hc).1, (h2 c hc).2, htext c hc⟩
  refine ⟨t.map normCue, parseVTT_generateVTTContent t hok, ?_⟩
  have hok1 : ∀ c ∈ t.map normCue, CueOk c := by
    intro c hc
    rcases List.mem_map.mp hc with ⟨d, hd, rfl⟩
    exact cueOk_normCue d (hok d hd)
  rw [parseVTT_generateVTTContent (t.map normCue) hok1]
  congr 1
  rw [List.map_map]
  exact List.map_congr_left (fun d hd => normCue_idem d (hok d hd))

theorem claim9_witness :
    ∃ t1, parseVTT (generateVTTContent [sampleCue]) = .ok t1 ∧
      parseVTT (generateVTTContent t1) = .ok t1 :=
  claim9_roundtrip samplePayload [sampleCue] (by rfl) (by decide)

end YTMcp
